import Mathlib

/-!
Verification of the type-string normalizer, hover-text extractor and AST
return-type inferencer of the php-typehints extension (src/typeHelper.ts).

The TypeScript works on JavaScript strings; we embed type strings as
`List Char` (with `String` wrappers for readability).  JavaScript regular
expressions are translated rule by rule into explicit scanning functions;
each translation is documented at its definition.  The `.` regex class is
modelled by `dotClass` (any character except the JavaScript line
terminators), `\s` and `String.prototype.trim` by `isJsWs`, `\w` by
`isWordChar`, and `String.prototype.toLowerCase` by mapping
`Char.toLower` (ASCII case folding, which agrees with JavaScript on the
ASCII keywords these rules compare against).
-/

namespace PhpTypeHints

/-- JavaScript whitespace (`\s`, and the set trimmed by `trim()`):
space, tab, line feed, vertical tab, form feed, carriage return,
no-break space, BOM and the Unicode line separators. -/
def isJsWs (c : Char) : Bool :=
  c = ' ' || c = '\t' || c = '\n' || c = '\x0b' || c = '\x0c' || c = '\r' ||
  c = '\u00A0' || c = '\u2028' || c = '\u2029' || c = '\uFEFF'

/-- The JavaScript regex `.` class: any character except a line terminator. -/
def dotClass (c : Char) : Bool :=
  !(c = '\n' || c = '\r' || c = '\u2028' || c = '\u2029')

/-- `String.prototype.trim()`. -/
def trimChars (l : List Char) : List Char :=
  ((l.dropWhile isJsWs).reverse.dropWhile isJsWs).reverse

/-- `String.prototype.toLowerCase()` (ASCII case folding). -/
def lowerChars (l : List Char) : List Char := l.map Char.toLower

/-- Case-insensitive `startsWith`: `pre` is given in lower case. -/
def ciStarts (pre t : List Char) : Bool := pre.isPrefixOf (lowerChars t)

/-- Anchored case-insensitive match `^pre.+suf$` with a single closing
character `suf` (used for `^list<.+>$`, `^array\x7b.+\x7d$` and
`^class-string<.+>$`): the whole string is `pre`, then at least one
`dotClass` character, then `suf`. -/
def ciBlockMatch (pre : List Char) (suf : Char) (t : List Char) : Bool :=
  ciStarts pre t && (t.getLast? == some suf) &&
    decide (pre.length + 2 ≤ t.length) && (t.drop pre.length).dropLast.all dotClass

/-- Searches the continuation of `.+\)` after its first character:
succeeds on the first `')'`, keeps scanning over `dotClass` characters,
fails on a line terminator or the end of the string. -/
def searchCloseParen : List Char → Bool
  | [] => false
  | c :: cs => if c = ')' then true else if dotClass c then searchCloseParen cs else false

/-- The regex fragment `.+\)` matched at the start of `l` (with an
arbitrary continuation, as in the unanchored `^(callable|Closure)\(.+\)`):
at least one `dotClass` character followed by a `')'`. -/
def dotPlusCloseParen : List Char → Bool
  | [] => false
  | c :: cs => dotClass c && searchCloseParen cs

/-- First character class of the identifier in `^([A-Za-z_][A-Za-z0-9_\\]*)<.+>$`. -/
def identHead (c : Char) : Bool := c.isAlpha || c = '_'

/-- Continuation character class `[A-Za-z0-9_\\]` of the same identifier. -/
def identChar (c : Char) : Bool := c.isAlphanum || c = '_' || c = '\\'

/-- The generic-application regex `^([A-Za-z_][A-Za-z0-9_\\]*)<.+>$`,
returning the captured identifier.  The identifier class excludes `<`,
so the capture is the maximal identifier prefix; after it the regex
requires `<`, then at least one `dotClass` character, then a final `>`. -/
def genericNameMatch (t : List Char) : Option (List Char) :=
  match t with
  | [] => none
  | c :: cs =>
    if identHead c then
      match cs.dropWhile identChar with
      | '<' :: r =>
        if 2 ≤ r.length ∧ r.getLast? = some '>' ∧ r.dropLast.all dotClass = true then
          some (c :: cs.takeWhile identChar)
        else none
      | _ => none
    else none

/-- The alternatives of `^(positive|negative|non-positive|non-negative)-int$/i`. -/
def refinedIntAliases : List (List Char) :=
  ["positive-int".data, "negative-int".data, "non-positive-int".data, "non-negative-int".data]

/-- The alternatives of
`^(non-empty|literal|class|callable|numeric|truthy|non-falsy)-string$/i`. -/
def refinedStringAliases : List (List Char) :=
  ["non-empty-string".data, "literal-string".data, "class-string".data,
   "callable-string".data, "numeric-string".data, "truthy-string".data,
   "non-falsy-string".data]

/-- Body of `normalizeSingleType` after its initial `type = type.trim()`:
the rule chain applied, in source order, to the already-trimmed string. -/
def nstCore (t : List Char) : List Char :=
  if t = "$this".data then "static".data
  else if ['[', ']'].isSuffixOf t then "array".data
  else if ciStarts "array<".data t && (t.getLast? == some '>') then "array".data
  else if ciBlockMatch "list<".data '>' t then "array".data
  else if ciStarts "non-empty-array".data t then "array".data
  else if ciBlockMatch "array\x7b".data '\x7d' t then "array".data
  else if ciStarts "callable(".data t && dotPlusCloseParen (t.drop 9) then t.take 8
  else if ciStarts "closure(".data t && dotPlusCloseParen (t.drop 8) then t.take 7
  else if refinedIntAliases.contains (lowerChars t) then "int".data
  else if refinedStringAliases.contains (lowerChars t) then "string".data
  else if ciBlockMatch "class-string<".data '>' t then "string".data
  else match genericNameMatch t with
       | some name => name
       | none => t

/-- `normalizeSingleType` from src/typeHelper.ts. -/
def normalizeSingleType (t : List Char) : List Char := nstCore (trimChars t)

/-- Opening brackets tracked by the depth counter. -/
def isOpenBr (c : Char) : Bool := c = '<' || c = '(' || c = '\x7b'

/-- Closing brackets tracked by the depth counter. -/
def isCloseBr (c : Char) : Bool := c = '>' || c = ')' || c = '\x7d'

/-- Scanner of `hasTopLevelUnion`, carrying the current depth. -/
def hasTLUGo : List Char → Int → Bool
  | [], _ => false
  | c :: cs, d =>
    if isOpenBr c then hasTLUGo cs (d + 1)
    else if isCloseBr c then hasTLUGo cs (d - 1)
    else if c = '|' && d == 0 then true
    else hasTLUGo cs d

/-- `hasTopLevelUnion` from src/typeHelper.ts. -/
def hasTopLevelUnion (t : List Char) : Bool := hasTLUGo t 0

/-- Scanner of `splitTopLevelUnion`, carrying `current` and `depth`. -/
def splitGo : List Char → List Char → Int → List (List Char)
  | [], cur, _ => if cur = [] then [] else [cur]
  | c :: cs, cur, d =>
    if isOpenBr c then splitGo cs (cur ++ [c]) (d + 1)
    else if isCloseBr c then splitGo cs (cur ++ [c]) (d - 1)
    else if c = '|' && d == 0 then cur :: splitGo cs [] d
    else splitGo cs (cur ++ [c]) d

/-- `splitTopLevelUnion` from src/typeHelper.ts. -/
def splitTopLevelUnion (t : List Char) : List (List Char) := splitGo t [] 0

/-- `[...new Set(l)]`: deduplication keeping first occurrences, with an
accumulator of the elements already emitted. -/
def jsSetDedupAux (seen : List (List Char)) : List (List Char) → List (List Char)
  | [] => []
  | p :: ps =>
    if p ∈ seen then jsSetDedupAux seen ps
    else p :: jsSetDedupAux (seen ++ [p]) ps

/-- `[...new Set(l)]` on a list of strings. -/
def jsSetDedup (l : List (List Char)) : List (List Char) := jsSetDedupAux [] l

/-- `parts.join('|')`. -/
def joinBar (ps : List (List Char)) : List Char := List.intercalate ['|'] ps

/-- The union branch of `normalizePhpReturnType`: split at top-level `|`,
normalize each trimmed part, drop empty results, deduplicate keeping
first occurrences, join with `|`. -/
def unionNormalize (t : List Char) : List Char :=
  joinBar (jsSetDedup
    (((splitTopLevelUnion t).map (fun p => normalizeSingleType (trimChars p))).filter
      (fun p => !p.isEmpty)))

/-- `normalizePhpReturnType` from src/typeHelper.ts (the Normalizer's
entry point; `!type` is falsy exactly on the empty string). -/
def normalizePhpReturnType (t : List Char) : List Char :=
  if t = [] ∨ t = "void".data ∨ t = "never".data ∨ t = "mixed".data then t
  else if t = "null".data then t
  else if t.head? = some '?' then normalizeSingleType t.tail ++ "|null".data
  else if hasTopLevelUnion t then unionNormalize t
  else normalizeSingleType t

/-- String-level wrapper of the Normalizer. -/
def normalizePhp (s : String) : String := ⟨normalizePhpReturnType s.data⟩

/-!
## AST model

php-parser hands the inferencer a dynamically typed node tree; the walk
dispatches on the `kind` field and recurses into every object/array field.
We model the node shapes the two functions consult.  A `return` node with
an expression is `retExpr`, a bare `return;` (whose `expr` is `null`) is
`retBare`; `other` covers every remaining kind (blocks, ifs, closures,
calls, ...) with its child nodes in field order.  `newExpr`'s `className`
is `expr.what.name` when that is a string (a dynamic or missing class
expression is `none`).  Node kinds `string`, `encapsed`, `nowdoc`,
`heredoc` are separate leaf constructors, `nullLit` stands for both the
`nullkeyword` and `null` kinds.
-/

mutual

inductive PhpNode : Type where
  | arrayLit (items : PhpNodes)
  | stringLit
  | encapsed
  | nowdoc
  | heredoc
  | number (value : String)
  | boolean
  | nullLit
  | newExpr (className : Option String) (args : PhpNodes)
  | varRef (vname : String)
  | bin (btype : String) (left right : PhpNode)
  | unary (utype : String) (operand : PhpNode)
  | retif (test trueExpr falseExpr : PhpNode)
  | retExpr (expr : PhpNode)
  | retBare
  | other (kind : String) (children : PhpNodes)

inductive PhpNodes : Type where
  | nil
  | cons (head : PhpNode) (tail : PhpNodes)

end

/-- The binary operator kinds typed as `bool` by `inferExpressionType`. -/
def boolBinOps : List String :=
  [">", "<", ">=", "<=", "==", "===", "!=", "!==", "<>",
   "&&", "||", "and", "or", "xor", "instanceof"]

/-- JavaScript truthiness of a `string | null` value. -/
def jsTruthy : Option String → Bool
  | some s => !s.isEmpty
  | none => false

/-- `inferExpressionType` from src/typeHelper.ts.  A numeric literal is
`float` exactly when its textual value contains a dot (the source also
requires the value to be truthy, which is implied by containing a dot). -/
def inferExpressionType : PhpNode → Option String
  | .arrayLit _ => some "array"
  | .stringLit => some "string"
  | .encapsed => some "string"
  | .nowdoc => some "string"
  | .heredoc => some "string"
  | .number v => if v.data.contains '.' then some "float" else some "int"
  | .boolean => some "bool"
  | .nullLit => some "null"
  | .newExpr cn _ =>
      match cn with
      | some n => if n.isEmpty then none else some n
      | none => none
  | .varRef v => if v = "this" then some "static" else none
  | .bin t l r =>
      if t ∈ boolBinOps then some "bool"
      else if t = "+" ∨ t = "-" ∨ t = "*" ∨ t = "/" then
        let lt := inferExpressionType l
        let rt := inferExpressionType r
        if lt = some "float" ∨ rt = some "float" then some "float"
        else if lt = some "int" ∨ rt = some "int" then some "int"
        else if jsTruthy lt || jsTruthy rt then some "int"
        else none
      else if t = "." then some "string"
      else none
  | .unary t _ => if t = "!" then some "bool" else none
  | .retif _ a b =>
      let tt := inferExpressionType a
      let ft := inferExpressionType b
      if tt = ft then tt
      else
        match tt, ft with
        | some u, some v => if u.isEmpty ∨ v.isEmpty then none else some (u ++ "|" ++ v)
        | _, _ => none
  | .retExpr _ => none
  | .retBare => none
  | .other _ _ => none

/-- The mutable state of one `collectReturnTypes` walk: the insertion
ordered set `returnTypes` plus the `hasReturn` / `hasUnknownReturn`
flags. -/
structure InferState where
  types : List String
  hasReturn : Bool
  hasUnknown : Bool
deriving Repr, DecidableEq

/-- The state before the walk. -/
def initInferState : InferState := ⟨[], false, false⟩

/-- `returnTypes.add(type)`: a JavaScript `Set` keeps first occurrences. -/
def addReturnType (st : InferState) (t : String) : InferState :=
  if t ∈ st.types then st else { st with types := st.types ++ [t] }

/-- The node kinds the walk refuses to descend into. -/
def funcLikeKinds : List String := ["function", "method", "closure", "arrowfunc"]

mutual

/-- `collectReturnTypes` from src/typeHelper.ts: on a `return` node set
`hasReturn`, add the expression's type when determined (`if (type)` is
falsy on the empty string), otherwise - when an expression is present -
set `hasUnknownReturn`; stop at function-like kinds; otherwise recurse
into all child nodes in field order (a `return` node's expression subtree
included). -/
def collectReturnTypes : PhpNode → InferState → InferState
  | .retExpr x, st =>
      let st1 : InferState := { st with hasReturn := true }
      let st2 : InferState :=
        match inferExpressionType x with
        | some t =>
            if t.isEmpty then { st1 with hasUnknown := true } else addReturnType st1 t
        | none => { st1 with hasUnknown := true }
      collectReturnTypes x st2
  | .retBare, st => { st with hasReturn := true }
  | .other k cs, st =>
      let st1 : InferState := if k = "return" then { st with hasReturn := true } else st
      if k ∈ funcLikeKinds then st1 else collectNodeList cs st1
  | .arrayLit items, st => collectNodeList items st
  | .newExpr _ args, st => collectNodeList args st
  | .bin _ l r, st => collectReturnTypes r (collectReturnTypes l st)
  | .unary _ o, st => collectReturnTypes o st
  | .retif c a b, st => collectReturnTypes b (collectReturnTypes a (collectReturnTypes c st))
  | .stringLit, st => st
  | .encapsed, st => st
  | .nowdoc, st => st
  | .heredoc, st => st
  | .number _, st => st
  | .boolean, st => st
  | .nullLit, st => st
  | .varRef _, st => st

/-- Walk of a child-node array, left to right. -/
def collectNodeList : PhpNodes → InferState → InferState
  | .nil, st => st
  | .cons n rest, st => collectNodeList rest (collectReturnTypes n st)

end

/-- The closed set used by the scalar-union fallback of the reduction. -/
def scalarJoinSet : List String := ["int", "float", "string", "bool", "array", "null", "void"]

/-- The terminal reduction of `inferReturnTypeFromAst` (lines 300-327):
applied to the state left by the walk. -/
def reduceReturnTypes (st : InferState) : Option String :=
  if st.hasUnknown then none
  else if st.hasReturn = false then some "void"
  else if st.types.length = 0 then none
  else if st.types.length = 1 then st.types.head?
  else if st.types.length = 2 ∧ "null" ∈ st.types then
    match st.types.find? (fun t => t != "null") with
    | some other => if other.isEmpty then none else some (other ++ "|null")
    | none => none
  else if ∀ t ∈ st.types, t ∈ scalarJoinSet then
    some (String.intercalate "|" st.types)
  else none

/-- The function-like node handed to `inferReturnTypeFromAst`: its
`kind` and its optional body (a statement block, or a single expression
node for an arrow function; `none` when the body is absent). -/
structure FuncNode where
  kind : String
  body : Option PhpNode

/-- `inferReturnTypeFromAst` from src/typeHelper.ts (`return type || null`
maps an empty string to `null`). -/
def inferReturnTypeFromAst (node : FuncNode) : Option String :=
  match node.body with
  | none => none
  | some b =>
    if node.kind = "arrowfunc" then
      match inferExpressionType b with
      | some t => if t.isEmpty then none else some t
      | none => none
    else reduceReturnTypes (collectReturnTypes b initInferState)

/-!
## Hover-text extractor

`extractReturnTypeFromHover` runs a fixed list of regexes over each hover
content string and normalizes the first clean capture.  Hover contents
are modelled as the list of their text values (every content shape the
source accepts - plain string, `MarkdownString`, `\x7bvalue\x7d` object -
contributes its string).  Each regex is translated into an explicit
scanner with JavaScript leftmost-match semantics: `regexScan` tries a
match at every start position from the left, remembering the previous
character for word-boundary and context classes.
-/

/-- The JavaScript `\w` class `[A-Za-z0-9_]`. -/
def isWordChar (c : Char) : Bool := c.isAlphanum || c = '_'

/-- `String.prototype.includes`. -/
def hasSubstr (needle : List Char) : List Char → Bool
  | [] => needle.isEmpty
  | c :: cs => needle.isPrefixOf (c :: cs) || hasSubstr needle cs

/-- Leftmost-match driver: try `tryAt` at every position (with the
preceding character), taking the first success. -/
def regexScan (tryAt : Option Char → List Char → Option (List Char)) :
    Option Char → List Char → Option (List Char)
  | prev, l =>
    match tryAt prev l with
    | some r => some r
    | none =>
      match l with
      | [] => none
      | c :: cs => regexScan tryAt (some c) cs

/-- The shared tail `\s*\([^)]*\)\s*:\s*([^\s\x7b]+)` of the signature
patterns, with the optional `(?:\w+\s*)?` name group when `allowName` is
true (the name class, whitespace and `(` are disjoint, so the
backtracking search is deterministic). -/
def sigTail (allowName : Bool) (l : List Char) : Option (List Char) :=
  let l1 := l.dropWhile isJsWs
  let l2 :=
    if allowName && l1.head?.elim false isWordChar then
      (l1.dropWhile isWordChar).dropWhile isJsWs
    else l1
  match l2 with
  | '(' :: r =>
    match r.dropWhile (fun c => !(c = ')')) with
    | ')' :: r2 =>
      match r2.dropWhile isJsWs with
      | ':' :: r3 =>
        let cap := (r3.dropWhile isJsWs).takeWhile (fun c => !(isJsWs c || c = '\x7b'))
        if cap.isEmpty then none else some cap
      | _ => none
    | _ => none
  | _ => none

/-- `/\bfunction\b\s*(?:\w+\s*)?\([^)]*\)\s*:\s*([^\s\x7b]+)/` at one
position. -/
def funcSigAt (prev : Option Char) (l : List Char) : Option (List Char) :=
  if prev.elim true (fun c => !isWordChar c) && "function".data.isPrefixOf l &&
      (l.drop 8).head?.elim true (fun c => !isWordChar c) then
    sigTail true (l.drop 8)
  else none

/-- `/\bfn\b\s*\([^)]*\)\s*:\s*([^\s\x7b]+)/` at one position. -/
def fnSigAt (prev : Option Char) (l : List Char) : Option (List Char) :=
  if prev.elim true (fun c => !isWordChar c) && "fn".data.isPrefixOf l &&
      (l.drop 2).head?.elim true (fun c => !isWordChar c) then
    sigTail false (l.drop 2)
  else none

/-- One alternative `\\?<keyword>` (case-insensitive) of the
closure-like pattern followed by its signature tail; the optional
backslash is consumed when the keyword follows it. -/
def closureKwTry (kw : List Char) (l : List Char) : Option (List Char) :=
  if l.head? = some '\\' && ciStarts kw (l.drop 1) then
    sigTail false ((l.drop 1).drop kw.length)
  else if ciStarts kw l then
    sigTail false (l.drop kw.length)
  else none

/-- `/(?:^|[^\w@])(?:\\?Closure|\\?callable)\s*\([^)]*\)\s*:\s*([^\s\x7b]+)/i`
at one position (the context class is checked against the preceding
character; the `Closure` alternative is tried first). -/
def closureLikeAt (prev : Option Char) (l : List Char) : Option (List Char) :=
  if prev.elim true (fun c => !(isWordChar c || c = '@')) then
    match closureKwTry "closure".data l with
    | some cap => some cap
    | none => closureKwTry "callable".data l
  else none

/-- `/_@return_\s*`([^`]+)`/` at one position. -/
def docBacktickAt (_prev : Option Char) (l : List Char) : Option (List Char) :=
  if "_@return_".data.isPrefixOf l then
    match (l.drop 9).dropWhile isJsWs with
    | '`' :: r =>
      let cap := r.takeWhile (fun c => !(c = '`'))
      if cap.isEmpty then none
      else if (r.drop cap.length).head? = some '`' then some cap
      else none
    | _ => none
  else none

/-- The trailing group `(?:\s*(?:\n|\*\/|$))` of the plain `@return`
pattern: some run of whitespace followed by a newline, a comment close
or the end of the string. -/
def docTailOk : List Char → Bool
  | [] => true
  | c :: cs =>
    if c = '\n' then true
    else if c = '*' && cs.head? = some '/' then true
    else if isJsWs c then docTailOk cs
    else false

/-- The lazy capture `([^\n*]+?)` of the plain `@return` pattern: grow
the capture one character at a time and stop at the first point where
the tail matches. -/
def docLazy : List Char → List Char → Option (List Char)
  | [], _ => none
  | c :: cs, acc =>
    if c = '\n' || c = '*' then none
    else if docTailOk cs then some (acc ++ [c])
    else docLazy cs (acc ++ [c])

/-- Backtracking over the greedy `\s+` of the plain `@return` pattern:
try the longest whitespace run first, then shorter ones. -/
def docWsTry (rest : List Char) : Nat → Option (List Char)
  | 0 => none
  | k + 1 =>
    match docLazy (rest.drop (k + 1)) [] with
    | some cap => some cap
    | none => docWsTry rest k

/-- `/@return\s+([^\n*]+?)(?:\s*(?:\n|\*\/|$))/` at one position. -/
def docPlainAt (_prev : Option Char) (l : List Char) : Option (List Char) :=
  if "@return".data.isPrefixOf l then
    let rest := l.drop 7
    docWsTry rest (rest.takeWhile isJsWs).length
  else none

/-- `normalizeReturnType` from src/typeHelper.ts: strip backticks, strip
leading namespace backslashes, trim, then normalize. -/
def normalizeReturnType (t : List Char) : List Char :=
  normalizePhpReturnType
    (trimChars ((t.filter (fun c => !(c = '`'))).dropWhile (fun c => c = '\\')))

/-- Guard on a raw capture (`match[1]`): trim it and reject it when it
contains a code fence or a `*`; the pattern loop then continues. -/
def acceptCapture (cap : List Char) : Option (List Char) :=
  let rt := trimChars cap
  if hasSubstr "```".data rt || hasSubstr "*".data rt then none else some rt

/-- The pattern loop over one content string: signature patterns, then -
only when the text has no `@return` - the closure-like pattern, then the
doc patterns; the first match whose capture passes `acceptCapture`
wins. -/
def tryPatternsOn (text : List Char) : Option (List Char) :=
  match (regexScan funcSigAt none text).bind acceptCapture with
  | some rt => some rt
  | none =>
    match (regexScan fnSigAt none text).bind acceptCapture with
    | some rt => some rt
    | none =>
      let viaClosure :=
        if hasSubstr "@return".data text then none
        else (regexScan closureLikeAt none text).bind acceptCapture
      match viaClosure with
      | some rt => some rt
      | none =>
        match (regexScan docBacktickAt none text).bind acceptCapture with
        | some rt => some rt
        | none => (regexScan docPlainAt none text).bind acceptCapture

/-- `extractReturnTypeFromHover` from src/typeHelper.ts, over the text
values of the hover contents. -/
def extractReturnTypeFromHover (contents : List (List Char)) : Option (List Char) :=
  match contents with
  | [] => none
  | text :: rest =>
    match tryPatternsOn text with
    | some rt => some (normalizeReturnType rt)
    | none => extractReturnTypeFromHover rest

/-- String-level wrapper of the extractor. -/
def extractReturnTypeFromHoverS (contents : List String) : Option String :=
  (extractReturnTypeFromHover (contents.map String.data)).map (fun l => ⟨l⟩)

/-!
## Specification-side predicates

`nstCoreNoRule` and `noRuleMatches` spell out, rule by rule, the spec's
phrase "no normalization rule matches": every guard of the source's rule
chain is false, so only the fallbacks remain.
-/

/-- No guard of `normalizeSingleType`'s rule chain holds for the
(already trimmed) string `u`. -/
def nstCoreNoRule (u : List Char) : Bool :=
  !(decide (u = "$this".data)) && !(['[', ']'].isSuffixOf u) &&
  !(ciStarts "array<".data u && (u.getLast? == some '>')) &&
  !(ciBlockMatch "list<".data '>' u) &&
  !(ciStarts "non-empty-array".data u) &&
  !(ciBlockMatch "array\x7b".data '\x7d' u) &&
  !(ciStarts "callable(".data u && dotPlusCloseParen (u.drop 9)) &&
  !(ciStarts "closure(".data u && dotPlusCloseParen (u.drop 8)) &&
  !(refinedIntAliases.contains (lowerChars u)) &&
  !(refinedStringAliases.contains (lowerChars u)) &&
  !(ciBlockMatch "class-string<".data '>' u) &&
  (genericNameMatch u).isNone

/-- No rule of the whole Normalizer matches `t`: none of the early
returns of `normalizePhpReturnType` fire, and every single-type rule
fails on the trimmed input. -/
def noRuleMatches (t : List Char) : Bool :=
  !(decide (t = []) || decide (t = "void".data) || decide (t = "never".data) ||
    decide (t = "mixed".data) || decide (t = "null".data)) &&
  !(t.head? == some '?') &&
  !(hasTopLevelUnion t) &&
  nstCoreNoRule (trimChars t)

/-- The bracket-depth contribution of one character. -/
def depthDelta (c : Char) : Int :=
  if isOpenBr c then 1 else if isCloseBr c then -1 else 0

/-- The net bracket depth of a string. -/
def netDepth (l : List Char) : Int := (l.map depthDelta).sum

/-- Right-hand half of `trim()`: drop trailing whitespace. -/
def trimRight (l : List Char) : List Char := (l.reverse.dropWhile isJsWs).reverse

/-- The shape invariant of the part list handed to `join`: every part
contains no top-level bar of its own, and every part except the final
one is bracket balanced.  Splitting the joined string recovers exactly
these parts. -/
def OkParts : List (List Char) → Prop
  | [] => True
  | p :: ps =>
    hasTLUGo p 0 = false ∧ (ps = [] ∨ netDepth p = 0) ∧ OkParts ps

/-!
## Lemmas about the walk
-/

mutual

/-- The walk only ever adds nonempty strings to the candidate set (the
`if (type)` truthiness test filters the empty string out). -/
theorem collect_no_empty :
    ∀ (n : PhpNode) (st : InferState), "" ∉ st.types → "" ∉ (collectReturnTypes n st).types
  | .retExpr x, st, h => by
      simp only [collectReturnTypes]
      apply collect_no_empty x
      cases hx : inferExpressionType x with
      | none => exact h
      | some t =>
        cases ht : t.isEmpty with
        | true => simpa [ht] using h
        | false =>
          simp only [ht, Bool.false_eq_true, if_false, addReturnType]
          split
          · exact h
          · intro hc
            rcases List.mem_append.mp hc with hc | hc
            · exact h hc
            · have hte : t = "" := ((List.mem_singleton).mp hc).symm
              rw [hte] at ht
              exact absurd ht (by decide)
  | .retBare, st, h => by simpa [collectReturnTypes] using h
  | .other k cs, st, h => by
      simp only [collectReturnTypes]
      split
      · split <;> simpa using h
      · apply collectList_no_empty
        split <;> simpa using h
  | .arrayLit items, st, h => collectList_no_empty items st h
  | .newExpr cn args, st, h => collectList_no_empty args st h
  | .bin t l r, st, h => collect_no_empty r _ (collect_no_empty l st h)
  | .unary t o, st, h => collect_no_empty o st h
  | .retif c a b, st, h =>
      collect_no_empty b _ (collect_no_empty a _ (collect_no_empty c st h))
  | .stringLit, st, h => by simpa [collectReturnTypes] using h
  | .encapsed, st, h => by simpa [collectReturnTypes] using h
  | .nowdoc, st, h => by simpa [collectReturnTypes] using h
  | .heredoc, st, h => by simpa [collectReturnTypes] using h
  | .number v, st, h => by simpa [collectReturnTypes] using h
  | .boolean, st, h => by simpa [collectReturnTypes] using h
  | .nullLit, st, h => by simpa [collectReturnTypes] using h
  | .varRef v, st, h => by simpa [collectReturnTypes] using h

/-- List version of `collect_no_empty`. -/
theorem collectList_no_empty :
    ∀ (l : PhpNodes) (st : InferState), "" ∉ st.types → "" ∉ (collectNodeList l st).types
  | .nil, st, h => by simpa [collectNodeList] using h
  | .cons n rest, st, h => collectList_no_empty rest _ (collect_no_empty n st h)

end

/-!
## Claims about the inferencer
-/

/-- C10: for every function-like node whose body is absent (e.g. an
abstract or interface method declaration), the inferencer returns absent
- not `void` - without walking anything. -/
theorem infer_absent_body (node : FuncNode) (h : node.body = none) :
    inferReturnTypeFromAst node = none := by
  unfold inferReturnTypeFromAst
  rw [h]

/-- Witness for C10 at a concrete bodyless method node. -/
theorem infer_absent_body_witness :
    inferReturnTypeFromAst ⟨"method", none⟩ = none :=
  infer_absent_body ⟨"method", none⟩ rfl

/-- C5: the walk never descends into a nested function-like node
(closure, arrow function, nested function or method): the state passes
through untouched, so the children - and any return statements inside
them - contribute nothing to the candidate set or the two flags. -/
theorem collect_funcLike_opaque (k : String) (hk : k ∈ funcLikeKinds)
    (cs cs' : PhpNodes) (st : InferState) :
    collectReturnTypes (.other k cs) st = st ∧
    collectReturnTypes (.other k cs) st = collectReturnTypes (.other k cs') st := by
  have hkr : k ≠ "return" := by
    simp only [funcLikeKinds, List.mem_cons, List.not_mem_nil, or_false] at hk
    rcases hk with rfl | rfl | rfl | rfl <;> decide
  have h1 : ∀ ds : PhpNodes, collectReturnTypes (.other k ds) st = st := by
    intro ds
    simp only [collectReturnTypes, hkr, if_false, if_pos hk]
  exact ⟨h1 cs, (h1 cs).trans (h1 cs').symm⟩

/-- Witness for C5: a closure body full of returns is ignored. -/
theorem collect_funcLike_opaque_witness :
    collectReturnTypes (.other "closure" (.cons (.retExpr .stringLit) .nil)) initInferState
      = initInferState ∧
    collectReturnTypes (.other "closure" (.cons (.retExpr .stringLit) .nil)) initInferState
      = collectReturnTypes (.other "closure" .nil) initInferState :=
  collect_funcLike_opaque "closure" (by decide)
    (.cons (.retExpr .stringLit) .nil) .nil initInferState

/-- C3: if the walk of a statement body met a return whose expression
could not be typed, the inferencer returns absent, no matter what the
other returns contributed. -/
theorem infer_unresolvable_poison (node : FuncNode) (b : PhpNode)
    (hb : node.body = some b) (hk : node.kind ≠ "arrowfunc")
    (hu : (collectReturnTypes b initInferState).hasUnknown = true) :
    inferReturnTypeFromAst node = none := by
  unfold inferReturnTypeFromAst
  rw [hb]
  simp only [hk, if_false]
  unfold reduceReturnTypes
  rw [hu]
  simp

/-- Witness for C3: one return of a plain variable poisons a body that
also returns an integer literal. -/
theorem infer_unresolvable_poison_witness :
    inferReturnTypeFromAst
      ⟨"function", some (.other "block"
        (.cons (.retExpr (.varRef "x")) (.cons (.retExpr (.number "1")) .nil)))⟩ = none :=
  infer_unresolvable_poison _ _ rfl (by decide) (by decide)

/-- C2: the terminal reduction of the inferencer on the state left by a
statement-body walk with no unresolvable return: no candidate and no
return gives `void`; an empty candidate set (bare `return;` only) gives
absent; a single candidate is returned as is; two candidates one of
which is `null` give the other suffixed `|null`; candidates all drawn
from the closed scalar set are joined with `|` in first-encountered
order; anything else gives absent. -/
theorem infer_terminal_reduction (node : FuncNode) (b : PhpNode) (st : InferState)
    (hb : node.body = some b) (hk : node.kind ≠ "arrowfunc")
    (hst : collectReturnTypes b initInferState = st)
    (hu : st.hasUnknown = false) :
    (st.hasReturn = false → inferReturnTypeFromAst node = some "void") ∧
    (st.hasReturn = true →
      ((st.types = [] → inferReturnTypeFromAst node = none) ∧
       (∀ t, st.types = [t] → inferReturnTypeFromAst node = some t) ∧
       (∀ t, st.types.length = 2 → "null" ∈ st.types → t ∈ st.types → t ≠ "null" →
          inferReturnTypeFromAst node = some (t ++ "|null")) ∧
       ((∀ t ∈ st.types, t ∈ scalarJoinSet) →
          ¬(st.types.length = 2 ∧ "null" ∈ st.types) →
          st.types ≠ [] → st.types.length ≠ 1 →
          inferReturnTypeFromAst node = some (String.intercalate "|" st.types)) ∧
       (st.types ≠ [] → st.types.length ≠ 1 →
          ¬(st.types.length = 2 ∧ "null" ∈ st.types) →
          ¬(∀ t ∈ st.types, t ∈ scalarJoinSet) →
          inferReturnTypeFromAst node = none))) := by
  have hne : "" ∉ st.types := by
    rw [← hst]
    exact collect_no_empty b initInferState (by simp [initInferState])
  have hinfer : inferReturnTypeFromAst node = reduceReturnTypes st := by
    unfold inferReturnTypeFromAst
    rw [hb]
    simp only [hk, if_false, hst]
  obtain ⟨tys, hR, hU⟩ := st
  simp only at hne hinfer hu ⊢
  subst hu
  refine ⟨?_, ?_⟩
  · intro hr
    subst hr
    rw [hinfer]
    simp [reduceReturnTypes]
  · intro hr
    subst hr
    refine ⟨?_, ?_, ?_, ?_, ?_⟩
    · intro h0
      subst h0
      rw [hinfer]
      simp [reduceReturnTypes]
    · intro t h1
      subst h1
      rw [hinfer]
      simp [reduceReturnTypes]
    · intro t h2 hmem htmem htne
      rcases List.length_eq_two.mp h2 with ⟨a, c, hac⟩
      subst hac
      rw [hinfer]
      have h2n : ([a, c] : List String).length = 2 ∧ "null" ∈ [a, c] := ⟨rfl, hmem⟩
      simp only [reduceReturnTypes, if_pos h2n]
      by_cases ha : a = "null"
      · subst ha
        have htc : t = c := by
          rcases List.mem_cons.mp htmem with h | h
          · exact absurd h htne
          · simpa using h
        subst htc
        have hbt : (t != "null") = true := bne_iff_ne.mpr htne
        have hfind : List.find? (fun x => x != "null") ["null", t] = some t := by
          simp [List.find?, hbt]
        rw [hfind]
        have ht0 : t ≠ "" := fun h0 => hne (by simp [h0])
        have hte : t.isEmpty = false := by
          cases hie : t.isEmpty with
          | false => rfl
          | true => exact absurd ((String.isEmpty_iff t).mp hie) ht0
        simp [hte]
      · have hcnull : c = "null" := by
          rcases List.mem_cons.mp hmem with h | h
          · exact absurd h.symm ha
          · have hh : "null" = c := by simpa using h
            exact hh.symm
        have hta : t = a := by
          rcases List.mem_cons.mp htmem with h | h
          · exact h
          · rw [hcnull] at h
            exact absurd (by simpa using h) htne
        subst hta
        have hbt : (t != "null") = true := bne_iff_ne.mpr htne
        have hfind : List.find? (fun x => x != "null") [t, c] = some t := by
          simp [List.find?, hbt]
        rw [hfind]
        have ht0 : t ≠ "" := fun h0 => hne (by simp [h0])
        have hte : t.isEmpty = false := by
          cases hie : t.isEmpty with
          | false => rfl
          | true => exact absurd ((String.isEmpty_iff t).mp hie) ht0
        simp [hte]
    · intro hall hn2 hne0 hne1
      rw [hinfer]
      have hl0 : ¬(tys.length = 0) := by
        simpa [List.length_eq_zero] using hne0
      simp only [reduceReturnTypes, if_neg hn2, if_pos hall, if_neg hl0, if_neg hne1]
      simp
    · intro hne0 hne1 hn2 hnall
      rw [hinfer]
      have hl0 : ¬(tys.length = 0) := by
        simpa [List.length_eq_zero] using hne0
      simp only [reduceReturnTypes, if_neg hn2, if_neg hnall, if_neg hl0, if_neg hne1]
      simp

/-- Witness for C2 at a body returning an int literal on one path and a
string literal on another: the scalar-join case yields `int|string`. -/
theorem infer_terminal_reduction_witness :
    inferReturnTypeFromAst
      ⟨"function", some (.other "block"
        (.cons (.retExpr (.number "1")) (.cons (.retExpr .stringLit) .nil)))⟩
      = some (String.intercalate "|" ["int", "string"]) := by
  have h := infer_terminal_reduction
    ⟨"function", some (.other "block"
      (.cons (.retExpr (.number "1")) (.cons (.retExpr .stringLit) .nil)))⟩
    (.other "block" (.cons (.retExpr (.number "1")) (.cons (.retExpr .stringLit) .nil)))
    ⟨["int", "string"], true, false⟩ rfl (by decide) (by decide) rfl
  exact (h.2 rfl).2.2.2.1 (by decide) (by decide) (by decide) (by decide)

/-- C7: end-to-end extraction: on the hover text `@return string[]` the
plain annotation pattern captures `string[]` and the extractor returns
the normalized `array`; on `@return callable(int): string` the captured
group is the whole `callable(int): string` and the extractor returns
`callable`, not `string`. -/
theorem extract_end_to_end :
    extractReturnTypeFromHoverS ["@return string[]"] = some "array" ∧
    (regexScan docPlainAt none "@return string[]".data).map (fun l => (⟨l⟩ : String))
      = some "string[]" ∧
    extractReturnTypeFromHoverS ["@return callable(int): string"] = some "callable" ∧
    (regexScan docPlainAt none "@return callable(int): string".data).map
        (fun l => (⟨l⟩ : String))
      = some "callable(int): string" := by
  refine ⟨?_, ?_, ?_, ?_⟩ <;> rfl

/-!
## Claims about the normalizer
-/

/-- A whitespace character is not a bracket, a union bar or the nullable
marker, and it is its own lower case. -/
theorem isJsWs_facts (c : Char) (h : isJsWs c = true) :
    isOpenBr c = false ∧ isCloseBr c = false ∧ c ≠ '|' ∧ c ≠ '?' ∧ c.toLower = c := by
  simp only [isJsWs, Bool.or_eq_true, decide_eq_true_eq] at h
  rcases h with ((((((((h | h) | h) | h) | h) | h) | h) | h) | h) | h <;> subst h <;>
    refine ⟨by decide, by decide, by decide, by decide, by decide⟩

/-- A whitespace-only string has no top-level union at any depth. -/
theorem hasTLUGo_ws (t : List Char) (h : ∀ c ∈ t, isJsWs c = true) :
    ∀ d, hasTLUGo t d = false := by
  induction t with
  | nil => intro d; rfl
  | cons c cs ih =>
    intro d
    have hc := isJsWs_facts c (h c (by simp))
    have hbarF : (decide (c = '|') && (d == 0)) = false := by
      simp [hc.2.2.1]
    simp only [hasTLUGo, hc.1, hc.2.1, hbarF, Bool.false_eq_true, if_false]
    exact ih (fun x hx => h x (by simp [hx])) d

/-- A whitespace-only string trims to the empty string. -/
theorem trimChars_ws (t : List Char) (h : ∀ c ∈ t, isJsWs c = true) :
    trimChars t = [] := by
  unfold trimChars
  have h1 : t.dropWhile isJsWs = [] := List.dropWhile_eq_nil_iff.mpr h
  rw [h1]
  rfl

/-- C9 (amended): a whitespace-only input normalizes to the empty string
(so only the empty input itself is returned unchanged). -/
theorem normalize_ws_only (t : List Char) (h : ∀ c ∈ t, isJsWs c = true) :
    normalizePhpReturnType t = [] := by
  rcases eq_or_ne t [] with rfl | hne
  · rfl
  · have hvoid : t ≠ "void".data := by
      rintro rfl
      exact absurd (h 'v' (by decide)) (by decide)
    have hnever : t ≠ "never".data := by
      rintro rfl
      exact absurd (h 'n' (by decide)) (by decide)
    have hmixed : t ≠ "mixed".data := by
      rintro rfl
      exact absurd (h 'm' (by decide)) (by decide)
    have hnull : t ≠ "null".data := by
      rintro rfl
      exact absurd (h 'n' (by decide)) (by decide)
    have hq : ¬t.head? = some '?' := by
      intro hh
      have : '?' ∈ t := List.mem_of_mem_head? (by rw [hh]; rfl)
      exact absurd (h '?' this) (by decide)
    have htlu : hasTopLevelUnion t = false := hasTLUGo_ws t h 0
    unfold normalizePhpReturnType
    rw [if_neg (by tauto), if_neg hnull, if_neg hq, htlu]
    simp only [Bool.false_eq_true, if_false]
    unfold normalizeSingleType
    rw [trimChars_ws t h]
    rfl

/-- C9 counterexample: a single-space input is not returned unchanged. -/
theorem normalize_ws_only_counterexample :
    (∀ c ∈ " ".data, isJsWs c = true) ∧ normalizePhp " " ≠ " " :=
  ⟨by decide, by decide⟩

/-- Witness for the amended C9 at two spaces. -/
theorem normalize_ws_only_witness : normalizePhpReturnType "  ".data = [] :=
  normalize_ws_only "  ".data (by decide)

/-- A true top-level-union scan means a bar occurs in the string. -/
theorem hasTLUGo_mem_bar (t : List Char) :
    ∀ d, hasTLUGo t d = true → '|' ∈ t := by
  induction t with
  | nil => intro d h; simp [hasTLUGo] at h
  | cons c cs ih =>
    intro d h
    by_cases hc : c = '|'
    · simp [hc]
    · have hbarF : (decide (c = '|') && (d == 0)) = false := by simp [hc]
      simp only [hasTLUGo, hbarF, Bool.false_eq_true, if_false] at h
      split at h
      · exact List.mem_cons_of_mem c (ih _ h)
      · split at h
        · exact List.mem_cons_of_mem c (ih _ h)
        · exact List.mem_cons_of_mem c (ih _ h)

/-- C1 (amended): on every input with a top-level union separator that
does not begin with the nullable marker, the Normalizer splits only at
depth-0 separators, normalizes each trimmed segment, drops empty
segments, deduplicates keeping first occurrences, and joins with a bar;
in particular a parenthesized intersection group is not decomposed and
doubled separators collapse. -/
theorem normalize_union_split :
    (∀ t : List Char, hasTopLevelUnion t = true → t.head? ≠ some '?' →
      normalizePhpReturnType t = unionNormalize t) ∧
    normalizePhp "(Countable&Iterator)|null" = "(Countable&Iterator)|null" ∧
    normalizePhp "string||int" = "string|int" := by
  refine ⟨?_, by decide, by decide⟩
  intro t hu hq
  have hbar : '|' ∈ t := hasTLUGo_mem_bar t 0 hu
  have hvoid : t ≠ "void".data := by rintro rfl; exact absurd hbar (by decide)
  have hnever : t ≠ "never".data := by rintro rfl; exact absurd hbar (by decide)
  have hmixed : t ≠ "mixed".data := by rintro rfl; exact absurd hbar (by decide)
  have hnull : t ≠ "null".data := by rintro rfl; exact absurd hbar (by decide)
  have hne : t ≠ [] := by rintro rfl; exact absurd hbar (by decide)
  unfold normalizePhpReturnType
  rw [if_neg (by tauto), if_neg hnull, if_neg hq, hu]
  rfl

/-- C1 counterexample: an input that both starts with `?` and contains a
top-level union is rewritten by the nullable rule, not split. -/
theorem normalize_union_split_counterexample :
    hasTopLevelUnion "?int|string".data = true ∧
    normalizePhpReturnType "?int|string".data ≠ unionNormalize "?int|string".data :=
  ⟨by decide, by decide⟩

/-- Witness for the amended C1 at `int|int`. -/
theorem normalize_union_split_witness :
    normalizePhpReturnType "int|int".data = unionNormalize "int|int".data :=
  normalize_union_split.1 "int|int".data (by decide) (by decide)

/-- When no single-type rule matches a trimmed string the rule chain
falls through and returns it unchanged. -/
theorem nstCore_of_noRule (u : List Char) (h : nstCoreNoRule u = true) :
    nstCore u = u := by
  simp only [nstCoreNoRule, Bool.and_eq_true, Bool.not_eq_true'] at h
  obtain ⟨⟨⟨⟨⟨⟨⟨⟨⟨⟨⟨h1, h2⟩, h3⟩, h4⟩, h5⟩, h6⟩, h7⟩, h8⟩, h9⟩, h10⟩, h11⟩, h12⟩ := h
  unfold nstCore
  rw [if_neg (of_decide_eq_false h1)]
  simp only [h2, h3, h4, h5, h6, h7, h8, h9, h10, h11, Bool.false_eq_true, if_false]
  rw [Option.isNone_iff_eq_none] at h12
  rw [h12]

/-- C8 (amended): the Normalizer is total by construction (it is a plain
recursive function), and when no normalization rule matches it returns
the trimmed input - hence an input with no surrounding whitespace is
returned unchanged. -/
theorem normalize_fallback (t : List Char) (h : noRuleMatches t = true) :
    normalizePhpReturnType t = trimChars t ∧
    (trimChars t = t → normalizePhpReturnType t = t) := by
  simp only [noRuleMatches, Bool.and_eq_true, Bool.not_eq_true'] at h
  obtain ⟨⟨⟨hearly, hq⟩, htlu⟩, hcore⟩ := h
  simp only [Bool.or_eq_false_iff, decide_eq_false_iff_not] at hearly
  have hmain : normalizePhpReturnType t = trimChars t := by
    unfold normalizePhpReturnType
    rw [if_neg (by tauto), if_neg hearly.2, if_neg (by simpa using hq), htlu]
    simp only [Bool.false_eq_true, if_false]
    exact nstCore_of_noRule (trimChars t) hcore
  exact ⟨hmain, fun he => by rw [hmain, he]⟩

/-- C8 counterexample: no rule matches ` foo `, yet the Normalizer does
not return it unchanged (it trims it). -/
theorem normalize_fallback_counterexample :
    noRuleMatches " foo ".data = true ∧ normalizePhp " foo " ≠ " foo " :=
  ⟨by decide, by decide⟩

/-- Witness for the amended C8 at ` foo `. -/
theorem normalize_fallback_witness :
    normalizePhpReturnType " foo ".data = trimChars " foo ".data ∧
    (trimChars " foo ".data = " foo ".data →
      normalizePhpReturnType " foo ".data = " foo ".data) :=
  normalize_fallback " foo ".data (by decide)

/-- `lowerChars` distributes over append. -/
theorem lowerChars_append (a b : List Char) :
    lowerChars (a ++ b) = lowerChars a ++ lowerChars b := List.map_append _ _ _

/-- `trimChars` is the right trim of the left trim. -/
theorem trimChars_eq (l : List Char) :
    trimChars l = trimRight (l.dropWhile isJsWs) := rfl

/-- Dropping leading matches stops no later than a failing element. -/
theorem dropWhile_append_stop (p : Char → Bool) (a b : List Char) (c : Char)
    (hc : p c = false) :
    (a ++ c :: b).dropWhile p = a.dropWhile p ++ c :: b := by
  induction a with
  | nil => simp [List.dropWhile_cons, hc]
  | cons x xs ih =>
    by_cases hx : p x
    · simp [List.dropWhile_cons, hx, ih]
    · simp [List.dropWhile_cons, hx]

/-- `trimRight` keeps everything up to the last non-whitespace character. -/
theorem trimRight_anchor (x y : List Char) (c : Char) (hc : isJsWs c = false) :
    trimRight (x ++ c :: y) = x ++ c :: trimRight y := by
  unfold trimRight
  rw [List.reverse_append, List.reverse_cons, List.append_assoc, List.singleton_append,
    dropWhile_append_stop _ _ _ _ hc, List.reverse_append, List.reverse_cons,
    List.reverse_reverse]
  simp

/-- A run of `dotClass` characters before a `')'` satisfies the
`.+\)` search. -/
theorem searchCloseParen_over (a b : List Char) (ha : ∀ c ∈ a, dotClass c = true) :
    searchCloseParen (a ++ ')' :: b) = true := by
  induction a with
  | nil => rfl
  | cons x xs ih =>
    simp only [List.cons_append, searchCloseParen]
    by_cases hx : x = ')'
    · simp [hx]
    · rw [if_neg hx, if_pos (ha x (by simp))]
      exact ih (fun c hc => ha c (by simp [hc]))

/-- A case-insensitive prefix test fails when some position below the
pattern length disagrees. -/
theorem ciStarts_false_at (pre u : List Char) (i : Nat) (hi : i < pre.length)
    (hp : (lowerChars u)[i]? ≠ pre[i]?) : ciStarts pre u = false := by
  cases h : ciStarts pre u
  · rfl
  · exfalso
    apply hp
    have hpre : pre <+: lowerChars u := by
      have h2 := h
      unfold ciStarts at h2
      exact List.isPrefixOf_iff_prefix.mp h2
    obtain ⟨r, hr⟩ := hpre
    rw [← hr, List.getElem?_append, if_pos hi]

/-- A block match fails as soon as its prefix test does. -/
theorem ciBlockMatch_false (pre : List Char) (suf : Char) (u : List Char)
    (h : ciStarts pre u = false) : ciBlockMatch pre suf u = false := by
  unfold ciBlockMatch
  rw [h]
  rfl

/-- `contains` is false when the value differs from every element. -/
theorem contains_false_of_ne (l : List (List Char)) (x : List Char)
    (h : ∀ y ∈ l, x ≠ y) : l.contains x = false := by
  cases hg : l.contains x
  · rfl
  · exact absurd (List.elem_iff.mp hg) (fun hm => h x hm rfl)

/-- The rule chain of `normalizeSingleType` on a trimmed string of the
exact shape `keyword(params)...`: only the callable/Closure rule fires
and it returns the keyword with its original case. -/
theorem nstCore_callable_shape (kw ps suf2 u : List Char)
    (hu : u = kw ++ '(' :: (ps ++ ')' :: suf2))
    (hkw : lowerChars kw = "callable".data ∨ lowerChars kw = "closure".data)
    (hps : ps ≠ []) (hdot : ∀ c ∈ ps, dotClass c = true)
    (hsq : (['[', ']'].isSuffixOf u) = false) :
    nstCore u = kw := by
  have hpslen : 1 ≤ ps.length := List.length_pos.mpr hps
  have hlowu : lowerChars u = lowerChars kw ++ '(' :: lowerChars (ps ++ ')' :: suf2) := by
    rw [hu, lowerChars_append]
    rfl
  rcases hkw with hk | hk
  · -- keyword is a case variant of callable
    have hkwlen : kw.length = 8 := by
      have h2 := congrArg List.length hk
      simpa [lowerChars] using h2
    have hulen : 10 ≤ u.length := by
      rw [hu]
      simp only [List.length_append, List.length_cons]
      omega
    have g1 : u ≠ "$this".data := by
      intro h2
      rw [h2] at hulen
      exact absurd hulen (by decide)
    have hlow : lowerChars u = "callable".data ++ '(' :: lowerChars (ps ++ ')' :: suf2) := by
      rw [hlowu, hk]
    have g3 : ciStarts "array<".data u = false := by
      apply ciStarts_false_at _ _ 0 (by decide)
      rw [hlow]
      exact (by decide : (some 'c' : Option Char) ≠ some 'a')
    have g4 : ciStarts "list<".data u = false := by
      apply ciStarts_false_at _ _ 0 (by decide)
      rw [hlow]
      exact (by decide : (some 'c' : Option Char) ≠ some 'l')
    have g5 : ciStarts "non-empty-array".data u = false := by
      apply ciStarts_false_at _ _ 0 (by decide)
      rw [hlow]
      exact (by decide : (some 'c' : Option Char) ≠ some 'n')
    have g6 : ciStarts "array\x7b".data u = false := by
      apply ciStarts_false_at _ _ 0 (by decide)
      rw [hlow]
      exact (by decide : (some 'c' : Option Char) ≠ some 'a')
    have g11 : ciStarts "class-string<".data u = false := by
      apply ciStarts_false_at _ _ 2 (by decide)
      rw [hlow]
      exact (by decide : (some 'l' : Option Char) ≠ some 'a')
    have g8 : refinedIntAliases.contains (lowerChars u) = false := by
      apply contains_false_of_ne
      intro y hy h2
      rw [hlow] at h2
      simp only [refinedIntAliases, List.mem_cons, List.not_mem_nil, or_false] at hy
      rcases hy with rfl | rfl | rfl | rfl
      · exact absurd (congrArg (fun l => l[0]?) h2)
          (by decide : ¬((some 'c' : Option Char) = some 'p'))
      · exact absurd (congrArg (fun l => l[0]?) h2)
          (by decide : ¬((some 'c' : Option Char) = some 'n'))
      · exact absurd (congrArg (fun l => l[0]?) h2)
          (by decide : ¬((some 'c' : Option Char) = some 'n'))
      · exact absurd (congrArg (fun l => l[0]?) h2)
          (by decide : ¬((some 'c' : Option Char) = some 'n'))
    have g9 : refinedStringAliases.contains (lowerChars u) = false := by
      apply contains_false_of_ne
      intro y hy h2
      rw [hlow] at h2
      simp only [refinedStringAliases, List.mem_cons, List.not_mem_nil, or_false] at hy
      rcases hy with rfl | rfl | rfl | rfl | rfl | rfl | rfl
      · exact absurd (congrArg (fun l => l[0]?) h2)
          (by decide : ¬((some 'c' : Option Char) = some 'n'))
      · exact absurd (congrArg (fun l => l[0]?) h2)
          (by decide : ¬((some 'c' : Option Char) = some 'l'))
      · exact absurd (congrArg (fun l => l[1]?) h2)
          (by decide : ¬((some 'a' : Option Char) = some 'l'))
      · exfalso
        have h3 := congrArg (fun l => l.drop 8) h2
        simp only at h3
        rw [show (("callable".data ++ '(' :: lowerChars (ps ++ ')' :: suf2)).drop 8)
              = '(' :: lowerChars (ps ++ ')' :: suf2) from
            List.drop_left' (by decide)] at h3
        simp at h3
      · exact absurd (congrArg (fun l => l[0]?) h2)
          (by decide : ¬((some 'c' : Option Char) = some 'n'))
      · exact absurd (congrArg (fun l => l[0]?) h2)
          (by decide : ¬((some 'c' : Option Char) = some 't'))
      · exact absurd (congrArg (fun l => l[0]?) h2)
          (by decide : ¬((some 'c' : Option Char) = some 'n'))
    have g7pos : ciStarts "callable(".data u = true := by
      unfold ciStarts
      rw [hlow]
      rw [show ("callable".data ++ '(' :: lowerChars (ps ++ ')' :: suf2))
            = ("callable(".data ++ lowerChars (ps ++ ')' :: suf2)) from rfl]
      simp
    have hdrop : u.drop 9 = ps ++ ')' :: suf2 := by
      rw [hu, show kw ++ '(' :: (ps ++ ')' :: suf2)
            = (kw ++ ['(']) ++ (ps ++ ')' :: suf2) from by simp]
      exact List.drop_left' (by simp [hkwlen])
    have g7dot : dotPlusCloseParen (u.drop 9) = true := by
      rw [hdrop]
      cases hps0 : ps with
      | nil => exact absurd hps0 hps
      | cons p0 pr =>
        simp only [List.cons_append, dotPlusCloseParen]
        rw [hdot p0 (hps0 ▸ List.mem_cons_self p0 pr),
          searchCloseParen_over pr _ (fun c hc => hdot c (hps0 ▸ List.mem_cons_of_mem p0 hc))]
        rfl
    unfold nstCore
    rw [if_neg g1]
    simp only [hsq, g3, g5, Bool.false_and, Bool.false_eq_true, if_false,
      ciBlockMatch_false _ '>' u g4, ciBlockMatch_false _ '\x7d' u g6,
      ciBlockMatch_false _ '>' u g11, g8, g9, g7pos, g7dot, Bool.and_self, if_true]
    rw [hu]
    exact List.take_left' hkwlen
  · -- keyword is a case variant of Closure
    have hkwlen : kw.length = 7 := by
      have h2 := congrArg List.length hk
      simpa [lowerChars] using h2
    have hulen : 9 ≤ u.length := by
      rw [hu]
      simp only [List.length_append, List.length_cons]
      omega
    have g1 : u ≠ "$this".data := by
      intro h2
      rw [h2] at hulen
      exact absurd hulen (by decide)
    have hlow : lowerChars u = "closure".data ++ '(' :: lowerChars (ps ++ ')' :: suf2) := by
      rw [hlowu, hk]
    have g3 : ciStarts "array<".data u = false := by
      apply ciStarts_false_at _ _ 0 (by decide)
      rw [hlow]
      exact (by decide : (some 'c' : Option Char) ≠ some 'a')
    have g4 : ciStarts "list<".data u = false := by
      apply ciStarts_false_at _ _ 0 (by decide)
      rw [hlow]
      exact (by decide : (some 'c' : Option Char) ≠ some 'l')
    have g5 : ciStarts "non-empty-array".data u = false := by
      apply ciStarts_false_at _ _ 0 (by decide)
      rw [hlow]
      exact (by decide : (some 'c' : Option Char) ≠ some 'n')
    have g6 : ciStarts "array\x7b".data u = false := by
      apply ciStarts_false_at _ _ 0 (by decide)
      rw [hlow]
      exact (by decide : (some 'c' : Option Char) ≠ some 'a')
    have g11 : ciStarts "class-string<".data u = false := by
      apply ciStarts_false_at _ _ 2 (by decide)
      rw [hlow]
      exact (by decide : (some 'o' : Option Char) ≠ some 'a')
    have g7 : ciStarts "callable(".data u = false := by
      apply ciStarts_false_at _ _ 1 (by decide)
      rw [hlow]
      exact (by decide : (some 'l' : Option Char) ≠ some 'a')
    have g8 : refinedIntAliases.contains (lowerChars u) = false := by
      apply contains_false_of_ne
      intro y hy h2
      rw [hlow] at h2
      simp only [refinedIntAliases, List.mem_cons, List.not_mem_nil, or_false] at hy
      rcases hy with rfl | rfl | rfl | rfl
      · exact absurd (congrArg (fun l => l[0]?) h2)
          (by decide : ¬((some 'c' : Option Char) = some 'p'))
      · exact absurd (congrArg (fun l => l[0]?) h2)
          (by decide : ¬((some 'c' : Option Char) = some 'n'))
      · exact absurd (congrArg (fun l => l[0]?) h2)
          (by decide : ¬((some 'c' : Option Char) = some 'n'))
      · exact absurd (congrArg (fun l => l[0]?) h2)
          (by decide : ¬((some 'c' : Option Char) = some 'n'))
    have g9 : refinedStringAliases.contains (lowerChars u) = false := by
      apply contains_false_of_ne
      intro y hy h2
      rw [hlow] at h2
      simp only [refinedStringAliases, List.mem_cons, List.not_mem_nil, or_false] at hy
      rcases hy with rfl | rfl | rfl | rfl | rfl | rfl | rfl
      · exact absurd (congrArg (fun l => l[0]?) h2)
          (by decide : ¬((some 'c' : Option Char) = some 'n'))
      · exact absurd (congrArg (fun l => l[0]?) h2)
          (by decide : ¬((some 'c' : Option Char) = some 'l'))
      · exact absurd (congrArg (fun l => l[2]?) h2)
          (by decide : ¬((some 'o' : Option Char) = some 'a'))
      · exact absurd (congrArg (fun l => l[1]?) h2)
          (by decide : ¬((some 'l' : Option Char) = some 'a'))
      · exact absurd (congrArg (fun l => l[0]?) h2)
          (by decide : ¬((some 'c' : Option Char) = some 'n'))
      · exact absurd (congrArg (fun l => l[0]?) h2)
          (by decide : ¬((some 'c' : Option Char) = some 't'))
      · exact absurd (congrArg (fun l => l[0]?) h2)
          (by decide : ¬((some 'c' : Option Char) = some 'n'))
    have g8pos : ciStarts "closure(".data u = true := by
      unfold ciStarts
      rw [hlow]
      rw [show ("closure".data ++ '(' :: lowerChars (ps ++ ')' :: suf2))
            = ("closure(".data ++ lowerChars (ps ++ ')' :: suf2)) from rfl]
      simp
    have hdrop : u.drop 8 = ps ++ ')' :: suf2 := by
      rw [hu, show kw ++ '(' :: (ps ++ ')' :: suf2)
            = (kw ++ ['(']) ++ (ps ++ ')' :: suf2) from by simp]
      exact List.drop_left' (by simp [hkwlen])
    have g8dot : dotPlusCloseParen (u.drop 8) = true := by
      rw [hdrop]
      cases hps0 : ps with
      | nil => exact absurd hps0 hps
      | cons p0 pr =>
        simp only [List.cons_append, dotPlusCloseParen]
        rw [hdot p0 (hps0 ▸ List.mem_cons_self p0 pr),
          searchCloseParen_over pr _ (fun c hc => hdot c (hps0 ▸ List.mem_cons_of_mem p0 hc))]
        rfl
    unfold nstCore
    rw [if_neg g1]
    simp only [hsq, g3, g5, g7, Bool.false_and, Bool.and_false, Bool.false_eq_true, if_false,
      ciBlockMatch_false _ '>' u g4, ciBlockMatch_false _ '\x7d' u g6,
      ciBlockMatch_false _ '>' u g11, g8, g9, g8pos, g8dot, Bool.and_self, if_true]
    rw [hu]
    exact List.take_left' hkwlen

/-- C6 (amended): a single-type input of the exact shape
`keyword(params)suffix` - keyword a case variant of `callable` or
`Closure`, a nonempty parameter list, any suffix such as `: ReturnType` -
collapses to the keyword as written, provided the trailing-`[]` rule
does not fire first (i.e. the trimmed input does not end in `[]`). -/
theorem normalize_callable_collapse (kw ps suf t : List Char)
    (ht : t = kw ++ '(' :: (ps ++ ')' :: suf))
    (hkw : lowerChars kw = "callable".data ∨ lowerChars kw = "closure".data)
    (hps : ps ≠ []) (hdot : ∀ c ∈ ps, dotClass c = true)
    (hntlu : hasTopLevelUnion t = false)
    (hsq : (['[', ']'].isSuffixOf (trimChars t)) = false) :
    normalizePhpReturnType t = kw := by
  have hpslen : 1 ≤ ps.length := List.length_pos.mpr hps
  have hkwlen : kw.length = 8 ∨ kw.length = 7 := by
    rcases hkw with hk | hk
    · left
      have h2 := congrArg List.length hk
      simpa [lowerChars] using h2
    · right
      have h2 := congrArg List.length hk
      simpa [lowerChars] using h2
  obtain ⟨k0, kr, hkcons⟩ : ∃ k0 kr, kw = k0 :: kr := by
    cases hc : kw with
    | nil => rw [hc] at hkwlen; rcases hkwlen with h | h <;> simp at h
    | cons a l => exact ⟨a, l, rfl⟩
  have hk0 : k0.toLower = 'c' := by
    rcases hkw with hk | hk <;>
    · rw [hkcons] at hk
      have h2 : k0.toLower :: lowerChars kr = _ := hk
      exact (List.cons_eq_cons.mp h2).1
  have hwsk0 : isJsWs k0 = false := by
    cases hws : isJsWs k0 with
    | false => rfl
    | true =>
      have hfix := (isJsWs_facts k0 hws).2.2.2.2
      have hc : k0 = 'c' := hfix.symm.trans hk0
      rw [hc] at hws
      exact absurd hws (by decide)
  have hlen10 : 9 ≤ t.length := by
    rw [ht]
    simp only [List.length_append, List.length_cons]
    omega
  have hv1 : t ≠ [] := by
    intro h2
    rw [h2] at hlen10
    exact absurd hlen10 (by decide)
  have hv2 : t ≠ "void".data := by
    intro h2
    rw [h2] at hlen10
    exact absurd hlen10 (by decide)
  have hv3 : t ≠ "never".data := by
    intro h2
    rw [h2] at hlen10
    exact absurd hlen10 (by decide)
  have hv4 : t ≠ "mixed".data := by
    intro h2
    rw [h2] at hlen10
    exact absurd hlen10 (by decide)
  have hv5 : t ≠ "null".data := by
    intro h2
    rw [h2] at hlen10
    exact absurd hlen10 (by decide)
  have hq : ¬t.head? = some '?' := by
    rw [ht, hkcons]
    simp only [List.cons_append, List.head?_cons]
    intro h2
    have hk0q : k0 = '?' := by simpa using h2
    rw [hk0q] at hk0
    exact absurd hk0 (by decide)
  have htr : trimChars t = kw ++ '(' :: (ps ++ ')' :: trimRight suf) := by
    have h1 : t.dropWhile isJsWs = t := by
      rw [ht, hkcons]
      simp [List.dropWhile_cons, hwsk0]
    rw [trimChars_eq, h1, ht,
      show kw ++ '(' :: (ps ++ ')' :: suf) = (kw ++ '(' :: ps) ++ ')' :: suf from by simp,
      trimRight_anchor _ _ _ (by decide)]
    simp
  unfold normalizePhpReturnType
  rw [if_neg (by tauto), if_neg hv5, if_neg hq, hntlu]
  simp only [Bool.false_eq_true, if_false]
  unfold normalizeSingleType
  rw [htr] at hsq ⊢
  exact nstCore_callable_shape kw ps (trimRight suf) _ rfl hkw hps hdot hsq

/-- C6 counterexample: when the optional `: ReturnType` ends in `[]` the
trailing-`[]` rule fires first and the result is `array`, not the
keyword. -/
theorem normalize_callable_counterexample :
    normalizePhp "callable(int): string[]" = "array" ∧
    normalizePhp "callable(int): string[]" ≠ "callable" :=
  ⟨by decide, by decide⟩

/-- Witness for the amended C6 at the spec's two examples. -/
theorem normalize_callable_collapse_witness :
    normalizePhpReturnType "callable(int): string".data = "callable".data ∧
    normalizePhpReturnType "Closure(User): string".data = "Closure".data :=
  ⟨normalize_callable_collapse "callable".data "int".data ": string".data _
      (by decide) (Or.inl (by decide)) (by decide) (by decide) (by decide) (by decide),
   normalize_callable_collapse "Closure".data "User".data ": string".data _
      (by decide) (Or.inr (by decide)) (by decide) (by decide) (by decide) (by decide)⟩

/-!
## Depth, trim and split lemmas (towards the idempotence claim)
-/

/-- `netDepth` of a cons. -/
theorem netDepth_cons (c : Char) (l : List Char) :
    netDepth (c :: l) = depthDelta c + netDepth l := by
  simp [netDepth]

/-- `netDepth` distributes over append. -/
theorem netDepth_append (a b : List Char) :
    netDepth (a ++ b) = netDepth a + netDepth b := by
  simp [netDepth]

/-- Whitespace contributes no bracket depth. -/
theorem netDepth_ws (l : List Char) (h : ∀ c ∈ l, isJsWs c = true) : netDepth l = 0 := by
  induction l with
  | nil => rfl
  | cons c cs ih =>
    have hc := isJsWs_facts c (h c (by simp))
    rw [netDepth_cons, ih (fun x hx => h x (by simp [hx]))]
    simp [depthDelta, hc.1, hc.2.1]

/-- The top-level-union scan over an append. -/
theorem hasTLUGo_append (a b : List Char) :
    ∀ d, hasTLUGo (a ++ b) d = (hasTLUGo a d || hasTLUGo b (d + netDepth a)) := by
  induction a with
  | nil =>
    intro d
    simp [hasTLUGo, netDepth]
  | cons c cs ih =>
    intro d
    simp only [List.cons_append, List.append_eq, hasTLUGo, netDepth_cons]
    by_cases ho : isOpenBr c = true
    · have hd : depthDelta c = 1 := by simp [depthDelta, ho]
      rw [if_pos ho, if_pos ho, ih, hd]
      have he : d + (1 + netDepth cs) = d + 1 + netDepth cs := by omega
      rw [he]
    · rw [if_neg ho, if_neg ho]
      by_cases hc2 : isCloseBr c = true
      · have hd : depthDelta c = -1 := by simp [depthDelta, ho, hc2]
        rw [if_pos hc2, if_pos hc2, ih, hd]
        have he : d + (-1 + netDepth cs) = d - 1 + netDepth cs := by omega
        rw [he]
      · rw [if_neg hc2, if_neg hc2]
        by_cases hb : (decide (c = '|') && (d == 0)) = true
        · rw [if_pos hb, if_pos hb]
          simp
        · have hd : depthDelta c = 0 := by simp [depthDelta, ho, hc2]
          rw [if_neg hb, if_neg hb, ih, hd]
          have he : d + (0 + netDepth cs) = d + netDepth cs := by omega
          rw [he]

/-- The head of a `dropWhile` result fails the predicate. -/
theorem dropWhile_head_not (p : Char → Bool) (l : List Char) :
    l.dropWhile p = [] ∨ ∃ c cs, l.dropWhile p = c :: cs ∧ p c = false := by
  induction l with
  | nil => exact Or.inl rfl
  | cons c cs ih =>
    by_cases hc : p c
    · rw [List.dropWhile_cons_of_pos hc]
      exact ih
    · refine Or.inr ⟨c, cs, ?_, by simpa using hc⟩
      rw [List.dropWhile_cons, if_neg hc]

/-- `dropWhile` is idempotent. -/
theorem dropWhile_idem (p : Char → Bool) (l : List Char) :
    (l.dropWhile p).dropWhile p = l.dropWhile p := by
  rcases dropWhile_head_not p l with h | ⟨c, cs, h, hc⟩
  · rw [h]
    rfl
  · rw [h, List.dropWhile_cons, if_neg (by simp [hc])]

/-- A string is its right trim followed by trailing whitespace. -/
theorem trimRight_decomp (l : List Char) :
    ∃ w, l = trimRight l ++ w ∧ ∀ c ∈ w, isJsWs c = true := by
  refine ⟨(l.reverse.takeWhile isJsWs).reverse, ?_, ?_⟩
  · have h1 : l.reverse = l.reverse.takeWhile isJsWs ++ l.reverse.dropWhile isJsWs :=
      (List.takeWhile_append_dropWhile _ _).symm
    have h2 := congrArg List.reverse h1
    rw [List.reverse_reverse, List.reverse_append] at h2
    exact h2
  · intro c hc
    rw [List.mem_reverse] at hc
    exact List.mem_takeWhile_imp hc

/-- `trimRight` is idempotent. -/
theorem trimRight_idem (l : List Char) : trimRight (trimRight l) = trimRight l := by
  unfold trimRight
  rw [List.reverse_reverse, dropWhile_idem]

/-- A cons fixed by `dropWhile` has a failing head. -/
theorem head_not_of_dropWhile_fix (p : Char → Bool) (c : Char) (rest : List Char)
    (h : (c :: rest).dropWhile p = c :: rest) : p c = false := by
  cases hc : p c with
  | false => rfl
  | true =>
    exfalso
    rw [List.dropWhile_cons_of_pos hc] at h
    have hlen := congrArg List.length h
    have hle := (List.dropWhile_sublist (l := rest) p).length_le
    simp at hlen
    omega

/-- `trimChars` is idempotent. -/
theorem trimChars_idem (l : List Char) : trimChars (trimChars l) = trimChars l := by
  rw [trimChars_eq, trimChars_eq]
  have hmm : (l.dropWhile isJsWs).dropWhile isJsWs = l.dropWhile isJsWs :=
    dropWhile_idem _ _
  cases htr : trimRight (l.dropWhile isJsWs) with
  | nil => rfl
  | cons c cs =>
    obtain ⟨w, hw, _⟩ := trimRight_decomp (l.dropWhile isJsWs)
    rw [htr] at hw
    have hc : isJsWs c = false := by
      apply head_not_of_dropWhile_fix isJsWs c (cs ++ w)
      rw [← List.cons_append, ← hw]
      exact hmm
    rw [List.dropWhile_cons, if_neg (by simp [hc]), ← htr, trimRight_idem]

/-- Trimming first does not change the single-type normalization. -/
theorem nst_trim (p : List Char) :
    normalizeSingleType (trimChars p) = normalizeSingleType p := by
  unfold normalizeSingleType
  rw [trimChars_idem]

/-- Trimming preserves the net bracket depth. -/
theorem netDepth_trim (l : List Char) : netDepth (trimChars l) = netDepth l := by
  rw [trimChars_eq]
  have h1 : l = l.takeWhile isJsWs ++ l.dropWhile isJsWs :=
    (List.takeWhile_append_dropWhile _ _).symm
  obtain ⟨w, hw, hws⟩ := trimRight_decomp (l.dropWhile isJsWs)
  conv_rhs => rw [h1, hw]
  rw [netDepth_append, netDepth_append,
    netDepth_ws _ (fun c hc => List.mem_takeWhile_imp hc), netDepth_ws w hws]
  omega

/-- Trimming cannot introduce a top-level union. -/
theorem hasTLU_trim (l : List Char) (h : hasTLUGo l 0 = false) :
    hasTLUGo (trimChars l) 0 = false := by
  rw [trimChars_eq]
  have h1 : l = l.takeWhile isJsWs ++ l.dropWhile isJsWs :=
    (List.takeWhile_append_dropWhile _ _).symm
  obtain ⟨w, hw, hws⟩ := trimRight_decomp (l.dropWhile isJsWs)
  rw [h1, hw, hasTLUGo_append, Bool.or_eq_false_iff] at h
  have h2 := h.2
  rw [hasTLUGo_append, Bool.or_eq_false_iff] at h2
  have hz : (0 : Int) + netDepth (l.takeWhile isJsWs) = 0 := by
    rw [netDepth_ws _ (fun c hc => List.mem_takeWhile_imp hc)]
    omega
  rw [hz] at h2
  exact h2.1

/-- The split scanner walks over a stretch with no top-level bar by
appending it to the current segment and adjusting the depth. -/
theorem splitGo_append_noTL (p : List Char) :
    ∀ (l cur : List Char) (d : Int), hasTLUGo p d = false →
      splitGo (p ++ l) cur d = splitGo l (cur ++ p) (d + netDepth p) := by
  induction p with
  | nil =>
    intro l cur d _
    simp [netDepth]
  | cons c cs ih =>
    intro l cur d h
    simp only [List.cons_append, List.append_eq, splitGo, hasTLUGo] at *
    by_cases ho : isOpenBr c = true
    · rw [if_pos ho] at h ⊢
      rw [ih l (cur ++ [c]) (d + 1) h]
      have e1 : (cur ++ [c]) ++ cs = cur ++ c :: cs := by simp
      have e2 : d + 1 + netDepth cs = d + netDepth (c :: cs) := by
        rw [netDepth_cons]
        have hd : depthDelta c = 1 := by simp [depthDelta, ho]
        rw [hd]
        omega
      rw [e1, e2]
    · rw [if_neg ho] at h ⊢
      by_cases hc2 : isCloseBr c = true
      · rw [if_pos hc2] at h ⊢
        rw [ih l (cur ++ [c]) (d - 1) h]
        have e1 : (cur ++ [c]) ++ cs = cur ++ c :: cs := by simp
        have e2 : d - 1 + netDepth cs = d + netDepth (c :: cs) := by
          rw [netDepth_cons]
          have hd : depthDelta c = -1 := by simp [depthDelta, ho, hc2]
          rw [hd]
          omega
        rw [e1, e2]
      · rw [if_neg hc2] at h ⊢
        by_cases hb : (decide (c = '|') && (d == 0)) = true
        · rw [if_pos hb] at h
          exact absurd h (by simp)
        · rw [if_neg hb] at h ⊢
          rw [ih l (cur ++ [c]) d h]
          have e1 : (cur ++ [c]) ++ cs = cur ++ c :: cs := by simp
          have e2 : d + netDepth cs = d + netDepth (c :: cs) := by
            rw [netDepth_cons]
            have hd : depthDelta c = 0 := by simp [depthDelta, ho, hc2]
            rw [hd]
            omega
          rw [e1, e2]

/-- The parts produced by the split scanner satisfy the shape
invariant. -/
theorem splitGo_ok (l : List Char) :
    ∀ (cur : List Char) (d : Int), netDepth cur = d → hasTLUGo cur 0 = false →
      OkParts (splitGo l cur d) := by
  induction l with
  | nil =>
    intro cur d hnet htlu
    simp only [splitGo]
    split
    · trivial
    · exact ⟨htlu, Or.inl rfl, trivial⟩
  | cons c cs ih =>
    intro cur d hnet htlu
    simp only [splitGo]
    have hstep : ∀ (e : Int), depthDelta c = e → hasTLUGo [c] (0 + netDepth cur) = false →
        OkParts (splitGo cs (cur ++ [c]) (d + e)) := by
      intro e he hone
      apply ih
      · have h1 : netDepth [c] = e := by
          rw [netDepth_cons, he]
          simp [netDepth]
        rw [netDepth_append, hnet, h1]
      · rw [hasTLUGo_append, htlu, hone]
        rfl
    by_cases ho : isOpenBr c = true
    · rw [if_pos ho]
      refine hstep 1 (by simp [depthDelta, ho]) ?_
      simp [hasTLUGo, ho]
    · rw [if_neg ho]
      by_cases hc2 : isCloseBr c = true
      · rw [if_pos hc2]
        refine hstep (-1) (by simp [depthDelta, ho, hc2]) ?_
        simp [hasTLUGo, ho, hc2]
      · by_cases hb : (decide (c = '|') && (d == 0)) = true
        · rw [if_neg hc2, if_pos hb]
          have hd0 : d = 0 := by
            simp only [Bool.and_eq_true, decide_eq_true_eq, beq_iff_eq] at hb
            exact hb.2
          refine ⟨htlu, Or.inr (hnet.trans hd0), ?_⟩
          exact ih [] d (by simp [netDepth, hd0]) rfl
        · rw [if_neg hc2, if_neg hb]
          have hone : hasTLUGo [c] (0 + netDepth cur) = false := by
            simp only [hasTLUGo, ho, hc2, Bool.false_eq_true, if_false]
            have hbf : (decide (c = '|') && ((0 : Int) + netDepth cur == 0)) = false := by
              have hzz : (0 : Int) + netDepth cur = d := by
                rw [hnet]
                omega
              rw [hzz]
              simpa using hb
            rw [hbf]
            rfl
          have h := hstep 0 (by simp [depthDelta, ho, hc2]) hone
          simpa using h

/-- `join` of no parts. -/
theorem joinBar_nil : joinBar [] = [] := rfl

/-- `join` of a single part. -/
theorem joinBar_single (p : List Char) : joinBar [p] = p := by
  simp [joinBar, List.intercalate]

/-- `join` of two or more parts. -/
theorem joinBar_cons₂ (p q : List Char) (ps : List (List Char)) :
    joinBar (p :: q :: ps) = p ++ '|' :: joinBar (q :: ps) := by
  simp [joinBar, List.intercalate, List.intersperse]

/-- Splitting the `|`-join of well-shaped nonempty parts recovers
exactly the parts. -/
theorem split_join (ps : List (List Char)) (hok : OkParts ps) (hne : ∀ p ∈ ps, p ≠ []) :
    splitTopLevelUnion (joinBar ps) = ps := by
  induction ps with
  | nil => rfl
  | cons p ps ih =>
    obtain ⟨hp, hnet, hrest⟩ : hasTLUGo p 0 = false ∧ (ps = [] ∨ netDepth p = 0) ∧ OkParts ps :=
      hok
    cases ps with
    | nil =>
      rw [joinBar_single]
      show splitGo p [] 0 = [p]
      have h0 := splitGo_append_noTL p [] [] 0 hp
      rw [List.append_nil] at h0
      rw [h0]
      simp only [splitGo, List.nil_append]
      rw [if_neg (hne p (by simp))]
    | cons q ps2 =>
      have hnet0 : netDepth p = 0 := by
        rcases hnet with h | h
        · exact absurd h (by simp)
        · exact h
      rw [joinBar_cons₂]
      show splitGo (p ++ '|' :: joinBar (q :: ps2)) [] 0 = p :: q :: ps2
      rw [splitGo_append_noTL p _ [] 0 hp, hnet0, List.nil_append]
      have hz : (0 : Int) + 0 = 0 := by omega
      rw [hz]
      have hih := ih hrest (fun x hx => hne x (by simp [hx]))
      unfold splitTopLevelUnion at hih
      simp [splitGo, isOpenBr, isCloseBr, hih]

/-- The join of at least two well-shaped parts has a top-level union. -/
theorem joinBar_hasTLU (p q : List Char) (ps : List (List Char))
    (hok : OkParts (p :: q :: ps)) :
    hasTopLevelUnion (joinBar (p :: q :: ps)) = true := by
  obtain ⟨hp, hnet, _⟩ : hasTLUGo p 0 = false ∧ ((q :: ps) = [] ∨ netDepth p = 0) ∧ _ := hok
  have hnet0 : netDepth p = 0 := by
    rcases hnet with h | h
    · exact absurd h (by simp)
    · exact h
  rw [joinBar_cons₂]
  show hasTLUGo (p ++ '|' :: joinBar (q :: ps)) 0 = true
  rw [hasTLUGo_append, hp, hnet0, Bool.false_or]
  simp [hasTLUGo, isOpenBr, isCloseBr]

/-- The join of at least two parts contains a bar. -/
theorem joinBar_mem_bar (p q : List Char) (ps : List (List Char)) :
    '|' ∈ joinBar (p :: q :: ps) := by
  rw [joinBar_cons₂]
  simp

/-!
## Character-level lemmas for the rule-chain analysis
-/

/-- `Char.ofNat` of a valid codepoint decodes back to it. -/
theorem char_toNat_ofNat (n : Nat) (h : n.isValidChar) : (Char.ofNat n).toNat = n := by
  unfold Char.ofNat
  rw [dif_pos h]
  unfold Char.ofNatAux Char.toNat
  simp [UInt32.toNat]

/-- `toLower` moves only upper-case basic-latin letters: when the image
is not a lower-case letter the character was fixed. -/
theorem toLower_fix (c x : Char) (h : c.toLower = x)
    (hx : x.toNat < 97 ∨ 122 < x.toNat) : c = x := by
  have h' : (if c.toNat ≥ 65 ∧ c.toNat ≤ 90 then Char.ofNat (c.toNat + 32) else c) = x := h
  split at h'
  · exfalso
    rename_i hc
    have hval : x.toNat = c.toNat + 32 := by
      rw [← h', char_toNat_ofNat]
      exact Or.inl (by omega)
    omega
  · exact h'

/-- A basic-latin letter is not a bracket, a bar, whitespace or the
nullable marker. -/
theorem letter_range_plain (c : Char)
    (h : (65 ≤ c.toNat ∧ c.toNat ≤ 90) ∨ (97 ≤ c.toNat ∧ c.toNat ≤ 122)) :
    isOpenBr c = false ∧ isCloseBr c = false ∧ c ≠ '|' ∧ isJsWs c = false ∧ c ≠ '?' := by
  refine ⟨?_, ?_, ?_, ?_, ?_⟩
  · cases ho : isOpenBr c with
    | false => rfl
    | true =>
      exfalso
      simp only [isOpenBr, Bool.or_eq_true, decide_eq_true_eq] at ho
      rcases ho with (rfl | rfl) | rfl <;> revert h <;> decide
  · cases ho : isCloseBr c with
    | false => rfl
    | true =>
      exfalso
      simp only [isCloseBr, Bool.or_eq_true, decide_eq_true_eq] at ho
      rcases ho with (rfl | rfl) | rfl <;> revert h <;> decide
  · rintro rfl
    revert h
    decide
  · cases hw : isJsWs c with
    | false => rfl
    | true =>
      exfalso
      simp only [isJsWs, Bool.or_eq_true, decide_eq_true_eq] at hw
      rcases hw with ((((((((h1 | h1) | h1) | h1) | h1) | h1) | h1) | h1) | h1) | h1 <;>
        subst h1 <;> revert h <;> decide
  · rintro rfl
    revert h
    decide

/-- Characters whose lower case lands in a list of lower-case letters
are plain for every scanner concern. -/
theorem lower_word_plain (p w : List Char) (hw : lowerChars p = w)
    (hl : ∀ x ∈ w, 97 ≤ x.toNat ∧ x.toNat ≤ 122) :
    ∀ c ∈ p, isOpenBr c = false ∧ isCloseBr c = false ∧ c ≠ '|' ∧
      isJsWs c = false ∧ c ≠ '?' := by
  intro c hc
  have hcl : c.toLower ∈ w := by
    rw [← hw]
    exact List.mem_map_of_mem _ hc
  have hx := hl _ hcl
  apply letter_range_plain
  by_cases hcase : 65 ≤ c.toNat ∧ c.toNat ≤ 90
  · exact Or.inl hcase
  · right
    have hfixc : c.toLower = c := by
      unfold Char.toLower
      rw [if_neg (by omega)]
    rw [← hfixc]
    exact hx

/-- Plain characters keep the scanner inert: no top-level bar at any
depth and zero net depth. -/
theorem plain_scan (p : List Char)
    (h : ∀ c ∈ p, isOpenBr c = false ∧ isCloseBr c = false ∧ c ≠ '|') :
    (∀ d, hasTLUGo p d = false) ∧ netDepth p = 0 := by
  induction p with
  | nil => exact ⟨fun _ => rfl, rfl⟩
  | cons c cs ih =>
    obtain ⟨h1, h2, h3⟩ := h c (by simp)
    obtain ⟨iha, ihb⟩ := ih (fun x hx => h x (by simp [hx]))
    constructor
    · intro d
      simp only [hasTLUGo, h1, h2, Bool.false_eq_true, if_false]
      have hbf : (decide (c = '|') && (d == 0)) = false := by simp [h3]
      rw [hbf]
      simp only [Bool.false_eq_true, if_false]
      exact iha d
    · rw [netDepth_cons, ihb]
      simp [depthDelta, h1, h2]

/-- Two characters with different `identChar` status differ. -/
theorem identChar_ne (c y : Char) (h : identChar c = true) (hy : identChar y = false) :
    c ≠ y := by
  rintro rfl
  rw [h] at hy
  exact absurd hy (by simp)

/-- Identifier characters are not whitespace. -/
theorem identChar_not_ws (c : Char) (h : identChar c = true) : isJsWs c = false := by
  cases hws : isJsWs c with
  | false => rfl
  | true =>
    exfalso
    simp only [isJsWs, Bool.or_eq_true, decide_eq_true_eq] at hws
    rcases hws with ((((((((h1 | h1) | h1) | h1) | h1) | h1) | h1) | h1) | h1) | h1 <;>
      (rw [h1] at h; exact absurd h (by decide))

/-- Identifier characters open no bracket. -/
theorem identChar_not_open (c : Char) (h : identChar c = true) : isOpenBr c = false := by
  cases ho : isOpenBr c with
  | false => rfl
  | true =>
    exfalso
    simp only [isOpenBr, Bool.or_eq_true, decide_eq_true_eq] at ho
    rcases ho with (rfl | rfl) | rfl <;> exact absurd h (by decide)

/-- Identifier characters close no bracket. -/
theorem identChar_not_close (c : Char) (h : identChar c = true) : isCloseBr c = false := by
  cases ho : isCloseBr c with
  | false => rfl
  | true =>
    exfalso
    simp only [isCloseBr, Bool.or_eq_true, decide_eq_true_eq] at ho
    rcases ho with (rfl | rfl) | rfl <;> exact absurd h (by decide)

/-- An identifier head character is an identifier character. -/
theorem identHead_char (c : Char) (h : identHead c = true) : identChar c = true := by
  simp only [identHead, Bool.or_eq_true] at h
  simp only [identChar, Bool.or_eq_true, Char.isAlphanum]
  rcases h with h | h
  · exact Or.inl (Or.inl (by simp [h]))
  · exact Or.inl (Or.inr h)

/-- A successful generic match means the string contains `<`. -/
theorem genericNameMatch_mem (t : List Char) (h : genericNameMatch t ≠ none) : '<' ∈ t := by
  cases t with
  | nil => exact absurd rfl h
  | cons c cs =>
    simp only [genericNameMatch] at h
    split at h
    · split at h
      · rename_i r heq
        have hm : '<' ∈ cs.dropWhile identChar := by
          rw [heq]
          simp
        exact List.mem_cons_of_mem c ((List.dropWhile_sublist identChar).subset hm)
      · exact absurd rfl h
    · exact absurd rfl h

/-- A string of non-whitespace characters is already trimmed. -/
theorem trim_of_no_ws (p : List Char) (h : ∀ c ∈ p, isJsWs c = false) :
    trimChars p = p := by
  rw [trimChars_eq]
  have h1 : p.dropWhile isJsWs = p := by
    cases p with
    | nil => rfl
    | cons c cs => rw [List.dropWhile_cons, if_neg (by simp [h c (by simp)])]
  rw [h1]
  unfold trimRight
  have h2 : p.reverse.dropWhile isJsWs = p.reverse := by
    cases hr : p.reverse with
    | nil => rfl
    | cons c cs =>
      have hc : c ∈ p := by
        rw [← List.mem_reverse, hr]
        simp
      rw [List.dropWhile_cons, if_neg (by simp [h c hc])]
  rw [h2, List.reverse_reverse]

/-- A character fixed by `toLower` and absent from the lower-cased word
is absent from the original. -/
theorem not_mem_of_lower (p w : List Char) (hw : lowerChars p = w) (c : Char)
    (hc : c.toLower = c) (hcw : c ∉ w) : c ∉ p := by
  intro hm
  apply hcw
  rw [← hw]
  have h2 := List.mem_map_of_mem Char.toLower hm
  rwa [hc] at h2

/-- A successful case-insensitive prefix test puts every pattern
character in the image of `toLower` over the subject. -/
theorem ciStarts_mem (w p : List Char) (h : ciStarts w p = true) (x : Char) (hx : x ∈ w) :
    ∃ c ∈ p, c.toLower = x := by
  unfold ciStarts at h
  have hpre := List.isPrefixOf_iff_prefix.mp h
  have hmem : x ∈ lowerChars p := hpre.sublist.subset hx
  rw [lowerChars, List.mem_map] at hmem
  obtain ⟨a, ha, hal⟩ := hmem
  exact ⟨a, ha, hal⟩

/-- A false Bool is not true. -/
theorem bool_ne_true (b : Bool) (h : ¬(b = true)) : b = false := by
  cases b
  · rfl
  · exact absurd rfl h

/-- The capture of the generic regex is an identifier: an identifier
head followed by identifier characters. -/
theorem genericNameMatch_shape (t name : List Char) (h : genericNameMatch t = some name) :
    ∃ c cs, name = c :: cs ∧ identHead c = true ∧ ∀ x ∈ cs, identChar x = true := by
  cases t with
  | nil => exact absurd h (by simp [genericNameMatch])
  | cons c cs =>
    simp only [genericNameMatch] at h
    split at h
    · rename_i hih
      split at h
      · rename_i r heq
        split at h
        · exact ⟨c, cs.takeWhile identChar, (Option.some.inj h).symm, hih,
            fun x hx => List.mem_takeWhile_imp hx⟩
        · exact absurd h (by simp)
      · exact absurd h (by simp)
    · exact absurd h (by simp)

/-- Output analysis of the single-type rule chain: each rule yields a
closed keyword, a case-preserved `callable`/`Closure` slice, or the
captured identifier; otherwise no rule matched and the input comes back
with every guard false. -/
theorem nstCore_out (u : List Char) :
    (nstCore u = u ∧ nstCoreNoRule u = true) ∨
    nstCore u = "static".data ∨ nstCore u = "array".data ∨
    nstCore u = "int".data ∨ nstCore u = "string".data ∨
    (nstCore u = u.take 8 ∧ lowerChars (u.take 8) = "callable".data) ∨
    (nstCore u = u.take 7 ∧ lowerChars (u.take 7) = "closure".data) ∨
    (∃ c cs, nstCore u = c :: cs ∧ identHead c = true ∧ ∀ x ∈ cs, identChar x = true) := by
  by_cases h1 : u = "$this".data
  · refine Or.inr (Or.inl ?_)
    unfold nstCore
    rw [if_pos h1]
  by_cases h2 : (['[', ']'].isSuffixOf u) = true
  · refine Or.inr (Or.inr (Or.inl ?_))
    unfold nstCore
    rw [if_neg h1, if_pos h2]
  by_cases h3 : (ciStarts "array<".data u && (u.getLast? == some '>')) = true
  · refine Or.inr (Or.inr (Or.inl ?_))
    unfold nstCore
    rw [if_neg h1, if_neg h2, if_pos h3]
  by_cases h4 : ciBlockMatch "list<".data '>' u = true
  · refine Or.inr (Or.inr (Or.inl ?_))
    unfold nstCore
    rw [if_neg h1, if_neg h2, if_neg h3, if_pos h4]
  by_cases h5 : ciStarts "non-empty-array".data u = true
  · refine Or.inr (Or.inr (Or.inl ?_))
    unfold nstCore
    rw [if_neg h1, if_neg h2, if_neg h3, if_neg h4, if_pos h5]
  by_cases h6 : ciBlockMatch "array\x7b".data '\x7d' u = true
  · refine Or.inr (Or.inr (Or.inl ?_))
    unfold nstCore
    rw [if_neg h1, if_neg h2, if_neg h3, if_neg h4, if_neg h5, if_pos h6]
  by_cases h7 : (ciStarts "callable(".data u && dotPlusCloseParen (u.drop 9)) = true
  · refine Or.inr (Or.inr (Or.inr (Or.inr (Or.inr (Or.inl ⟨?_, ?_⟩)))))
    · unfold nstCore
      rw [if_neg h1, if_neg h2, if_neg h3, if_neg h4, if_neg h5, if_neg h6, if_pos h7]
    · simp only [Bool.and_eq_true] at h7
      obtain ⟨r, hr⟩ := List.isPrefixOf_iff_prefix.mp h7.1
      have hmt : lowerChars (u.take 8) = (lowerChars u).take 8 := List.map_take _ _ _
      have hsp : (['c', 'a', 'l', 'l', 'a', 'b', 'l', 'e', '('] : List Char) =
          "callable".data ++ ['('] := rfl
      rw [hmt, ← hr, hsp, List.append_assoc]
      exact List.take_left' (by decide)
  by_cases h8 : (ciStarts "closure(".data u && dotPlusCloseParen (u.drop 8)) = true
  · refine Or.inr (Or.inr (Or.inr (Or.inr (Or.inr (Or.inr (Or.inl ⟨?_, ?_⟩))))))
    · unfold nstCore
      rw [if_neg h1, if_neg h2, if_neg h3, if_neg h4, if_neg h5, if_neg h6, if_neg h7,
        if_pos h8]
    · simp only [Bool.and_eq_true] at h8
      obtain ⟨r, hr⟩ := List.isPrefixOf_iff_prefix.mp h8.1
      have hmt : lowerChars (u.take 7) = (lowerChars u).take 7 := List.map_take _ _ _
      have hsp : (['c', 'l', 'o', 's', 'u', 'r', 'e', '('] : List Char) =
          "closure".data ++ ['('] := rfl
      rw [hmt, ← hr, hsp, List.append_assoc]
      exact List.take_left' (by decide)
  by_cases h9 : refinedIntAliases.contains (lowerChars u) = true
  · refine Or.inr (Or.inr (Or.inr (Or.inl ?_)))
    unfold nstCore
    rw [if_neg h1, if_neg h2, if_neg h3, if_neg h4, if_neg h5, if_neg h6, if_neg h7,
      if_neg h8, if_pos h9]
  by_cases h10 : refinedStringAliases.contains (lowerChars u) = true
  · refine Or.inr (Or.inr (Or.inr (Or.inr (Or.inl ?_))))
    unfold nstCore
    rw [if_neg h1, if_neg h2, if_neg h3, if_neg h4, if_neg h5, if_neg h6, if_neg h7,
      if_neg h8, if_neg h9, if_pos h10]
  by_cases h11 : ciBlockMatch "class-string<".data '>' u = true
  · refine Or.inr (Or.inr (Or.inr (Or.inr (Or.inl ?_))))
    unfold nstCore
    rw [if_neg h1, if_neg h2, if_neg h3, if_neg h4, if_neg h5, if_neg h6, if_neg h7,
      if_neg h8, if_neg h9, if_neg h10, if_pos h11]
  have htail : nstCore u = match genericNameMatch u with
      | some name => name
      | none => u := by
    unfold nstCore
    rw [if_neg h1, if_neg h2, if_neg h3, if_neg h4, if_neg h5, if_neg h6, if_neg h7,
      if_neg h8, if_neg h9, if_neg h10, if_neg h11]
  cases hg : genericNameMatch u with
  | none =>
    left
    refine ⟨by rw [htail, hg], ?_⟩
    simp only [nstCoreNoRule, Bool.and_eq_true, Bool.not_eq_true',
      Option.isNone_iff_eq_none]
    exact ⟨⟨⟨⟨⟨⟨⟨⟨⟨⟨⟨decide_eq_false h1, bool_ne_true _ h2⟩, bool_ne_true _ h3⟩,
      bool_ne_true _ h4⟩, bool_ne_true _ h5⟩, bool_ne_true _ h6⟩, bool_ne_true _ h7⟩,
      bool_ne_true _ h8⟩, bool_ne_true _ h9⟩, bool_ne_true _ h10⟩,
      bool_ne_true _ h11⟩, hg⟩
  | some name =>
    obtain ⟨c, cs, hn, hh, hall⟩ := genericNameMatch_shape u name hg
    refine Or.inr (Or.inr (Or.inr (Or.inr (Or.inr (Or.inr (Or.inr
      ⟨c, cs, ?_, hh, hall⟩))))))
    rw [htail, hg, hn]

/-- Strings of letters whose lower case avoids every rule pattern are
fixed points of the single-type normalizer. -/
theorem nst_fixed_of_lower (p w : List Char) (hw : lowerChars p = w)
    (hl : ∀ x ∈ w, 97 ≤ x.toNat ∧ x.toNat ≤ 122)
    (hlen5 : w.length ≠ 5)
    (hg3 : "array<".data.isPrefixOf w = false)
    (hg4 : "list<".data.isPrefixOf w = false)
    (hg5 : "non-empty-array".data.isPrefixOf w = false)
    (hg6 : "array\x7b".data.isPrefixOf w = false)
    (hg7 : "callable(".data.isPrefixOf w = false)
    (hg8 : "closure(".data.isPrefixOf w = false)
    (hg9 : refinedIntAliases.contains w = false)
    (hg10 : refinedStringAliases.contains w = false)
    (hg11 : "class-string<".data.isPrefixOf w = false) :
    normalizeSingleType p = p := by
  have hplain := lower_word_plain p w hw hl
  have htrim : trimChars p = p := trim_of_no_ws p (fun c hc => (hplain c hc).2.2.2.1)
  have hciS : ∀ q : List Char, q.isPrefixOf w = false → ciStarts q p = false := by
    intro q hq
    unfold ciStarts
    rw [hw]
    exact hq
  have hmemw : ∀ x : Char, x.toLower = x → x.toNat < 97 → x ∉ p := by
    intro x hfix hxr hmem
    have hxw : x ∈ w := by
      rw [← hw]
      have h2 := List.mem_map_of_mem Char.toLower hmem
      rwa [hfix] at h2
    have := hl x hxw
    omega
  have hdollar : ¬ p = "$this".data := by
    intro he
    apply hlen5
    rw [← hw, he]
    decide
  have hsuf : (['[', ']'].isSuffixOf p) = false := by
    cases hs : ['[', ']'].isSuffixOf p with
    | false => rfl
    | true =>
      exfalso
      have hsfx := List.isSuffixOf_iff_suffix.mp hs
      exact hmemw ']' (by decide) (by decide) (hsfx.sublist.subset (by decide))
  have hgen : genericNameMatch p = none := by
    cases hg : genericNameMatch p with
    | none => rfl
    | some n =>
      exfalso
      exact hmemw '<' (by decide) (by decide) (genericNameMatch_mem p (by simp [hg]))
  unfold normalizeSingleType
  rw [htrim]
  unfold nstCore
  rw [if_neg hdollar]
  have hca : ciStarts "array<".data p = false := hciS _ hg3
  have hcna : ciStarts "non-empty-array".data p = false := hciS _ hg5
  have hccal : ciStarts "callable(".data p = false := hciS _ hg7
  have hcclo : ciStarts "closure(".data p = false := hciS _ hg8
  have hb4 : ciBlockMatch "list<".data '>' p = false := ciBlockMatch_false _ _ _ (hciS _ hg4)
  have hb6 : ciBlockMatch "array\x7b".data '\x7d' p = false :=
    ciBlockMatch_false _ _ _ (hciS _ hg6)
  have hb11 : ciBlockMatch "class-string<".data '>' p = false :=
    ciBlockMatch_false _ _ _ (hciS _ hg11)
  simp only [hsuf, hca, hcna, hccal, hcclo, hb4, hb6, hb11, hw, hg9, hg10,
    Bool.false_and, Bool.false_eq_true, if_false, hgen]

/-- Case variants of `callable` are fixed points of the single-type
normalizer. -/
theorem nst_fixed_callable (p : List Char) (h : lowerChars p = "callable".data) :
    normalizeSingleType p = p :=
  nst_fixed_of_lower p "callable".data h (by decide) (by decide) (by decide) (by decide)
    (by decide) (by decide) (by decide) (by decide) (by decide) (by decide) (by decide)

/-- Case variants of `Closure` are fixed points of the single-type
normalizer. -/
theorem nst_fixed_closure (p : List Char) (h : lowerChars p = "closure".data) :
    normalizeSingleType p = p :=
  nst_fixed_of_lower p "closure".data h (by decide) (by decide) (by decide) (by decide)
    (by decide) (by decide) (by decide) (by decide) (by decide) (by decide) (by decide)

/-- Extending identifier-character facts over the whole identifier. -/
theorem identAll_cons (c : Char) (cs : List Char) (hh : identHead c = true)
    (hall : ∀ x ∈ cs, identChar x = true) : ∀ x ∈ c :: cs, identChar x = true := by
  intro x hx
  rcases List.mem_cons.mp hx with rfl | hx2
  · exact identHead_char x hh
  · exact hall x hx2

/-- A nonempty identifier (head in `[A-Za-z_]`, rest in the identifier
continuation class) is a fixed point of the single-type normalizer. -/
theorem nst_fixed_ident (c : Char) (cs : List Char) (hh : identHead c = true)
    (hall : ∀ x ∈ cs, identChar x = true) :
    normalizeSingleType (c :: cs) = c :: cs := by
  have hallc := identAll_cons c cs hh hall
  have hnomem : ∀ x : Char, identChar x = false → x ∉ c :: cs := by
    intro x hxid hmem
    rw [hallc x hmem] at hxid
    exact absurd hxid (by decide)
  have htrim : trimChars (c :: cs) = c :: cs :=
    trim_of_no_ws _ (fun x hx => identChar_not_ws x (hallc x hx))
  have hciS : ∀ (q : List Char) (x : Char), x ∈ q → x.toLower = x →
      (x.toNat < 97 ∨ 122 < x.toNat) → identChar x = false →
      ciStarts q (c :: cs) = false := by
    intro q x hxq hfix hxr hxid
    cases hg : ciStarts q (c :: cs) with
    | false => rfl
    | true =>
      exfalso
      obtain ⟨a, ha, hal⟩ := ciStarts_mem q (c :: cs) hg x hxq
      have hax : a = x := toLower_fix a x hal hxr
      rw [hax] at ha
      exact hnomem x hxid ha
  have hdollar : ¬ (c :: cs) = "$this".data := by
    intro he
    apply hnomem '$' (by decide)
    rw [he]
    decide
  have hsuf : (['[', ']'].isSuffixOf (c :: cs)) = false := by
    cases hs : ['[', ']'].isSuffixOf (c :: cs) with
    | false => rfl
    | true =>
      exfalso
      have hsfx := List.isSuffixOf_iff_suffix.mp hs
      exact hnomem ']' (by decide) (hsfx.sublist.subset (by decide))
  have hlowmem : '-' ∉ lowerChars (c :: cs) := by
    intro hm
    rw [lowerChars, List.mem_map] at hm
    obtain ⟨a, ha, hal⟩ := hm
    have hax : a = '-' := toLower_fix a '-' hal (Or.inl (by decide))
    rw [hax] at ha
    exact hnomem '-' (by decide) ha
  have hg9 : refinedIntAliases.contains (lowerChars (c :: cs)) = false := by
    apply contains_false_of_ne
    intro y hy he
    apply hlowmem
    rw [he]
    fin_cases hy <;> decide
  have hg10 : refinedStringAliases.contains (lowerChars (c :: cs)) = false := by
    apply contains_false_of_ne
    intro y hy he
    apply hlowmem
    rw [he]
    fin_cases hy <;> decide
  have hgen : genericNameMatch (c :: cs) = none := by
    cases hg : genericNameMatch (c :: cs) with
    | none => rfl
    | some n =>
      exfalso
      exact hnomem '<' (by decide) (genericNameMatch_mem _ (by simp [hg]))
  unfold normalizeSingleType
  rw [htrim]
  unfold nstCore
  rw [if_neg hdollar]
  have hca : ciStarts "array<".data (c :: cs) = false :=
    hciS _ '<' (by decide) (by decide) (by decide) (by decide)
  have hcna : ciStarts "non-empty-array".data (c :: cs) = false :=
    hciS _ '-' (by decide) (by decide) (by decide) (by decide)
  have hccal : ciStarts "callable(".data (c :: cs) = false :=
    hciS _ '(' (by decide) (by decide) (by decide) (by decide)
  have hcclo : ciStarts "closure(".data (c :: cs) = false :=
    hciS _ '(' (by decide) (by decide) (by decide) (by decide)
  have hb4 : ciBlockMatch "list<".data '>' (c :: cs) = false :=
    ciBlockMatch_false _ _ _ (hciS _ '<' (by decide) (by decide) (by decide) (by decide))
  have hb6 : ciBlockMatch "array\x7b".data '\x7d' (c :: cs) = false :=
    ciBlockMatch_false _ _ _ (hciS _ '\x7b' (by decide) (by decide) (by decide) (by decide))
  have hb11 : ciBlockMatch "class-string<".data '>' (c :: cs) = false :=
    ciBlockMatch_false _ _ _ (hciS _ '<' (by decide) (by decide) (by decide) (by decide))
  simp only [hsuf, hca, hcna, hccal, hcclo, hb4, hb6, hb11, hg9, hg10,
    Bool.false_and, Bool.false_eq_true, if_false, hgen]

/-- The single-type normalizer is idempotent. -/
theorem nst_idem (t : List Char) :
    normalizeSingleType (normalizeSingleType t) = normalizeSingleType t := by
  have hout := nstCore_out (trimChars t)
  have hdef : normalizeSingleType t = nstCore (trimChars t) := rfl
  rcases hout with ⟨hfix, _⟩ | h | h | h | h | ⟨ho, hlow⟩ | ⟨ho, hlow⟩ |
    ⟨c, cs, ho, hh, hall⟩
  · rw [hdef, hfix]
    show nstCore (trimChars (trimChars t)) = trimChars t
    rw [trimChars_idem]
    exact hfix
  · rw [hdef, h]
    decide
  · rw [hdef, h]
    decide
  · rw [hdef, h]
    decide
  · rw [hdef, h]
    decide
  · rw [hdef, ho]
    exact nst_fixed_callable _ hlow
  · rw [hdef, ho]
    exact nst_fixed_closure _ hlow
  · rw [hdef, ho]
    exact nst_fixed_ident c cs hh hall

/-- The single-type normalizer never outputs a top-level bar, and its
output is either bracket balanced or the trimmed input, whose net depth
matches the input's. -/
theorem nst_preserve (t : List Char) (h : hasTLUGo t 0 = false) :
    hasTLUGo (normalizeSingleType t) 0 = false ∧
    (netDepth (normalizeSingleType t) = 0 ∨
      netDepth (normalizeSingleType t) = netDepth t) := by
  have hout := nstCore_out (trimChars t)
  have hdef : normalizeSingleType t = nstCore (trimChars t) := rfl
  rcases hout with ⟨hfix, _⟩ | h1 | h1 | h1 | h1 | ⟨ho, hlow⟩ | ⟨ho, hlow⟩ |
    ⟨c, cs, ho, hh, hall⟩
  · rw [hdef, hfix]
    exact ⟨hasTLU_trim t h, Or.inr (netDepth_trim t)⟩
  · rw [hdef, h1]
    exact ⟨by decide, Or.inl (by decide)⟩
  · rw [hdef, h1]
    exact ⟨by decide, Or.inl (by decide)⟩
  · rw [hdef, h1]
    exact ⟨by decide, Or.inl (by decide)⟩
  · rw [hdef, h1]
    exact ⟨by decide, Or.inl (by decide)⟩
  · rw [hdef, ho]
    have hplain := lower_word_plain _ _ hlow (by decide)
    have hp := plain_scan _ (fun x hx =>
      ⟨(hplain x hx).1, (hplain x hx).2.1, (hplain x hx).2.2.1⟩)
    exact ⟨hp.1 0, Or.inl hp.2⟩
  · rw [hdef, ho]
    have hplain := lower_word_plain _ _ hlow (by decide)
    have hp := plain_scan _ (fun x hx =>
      ⟨(hplain x hx).1, (hplain x hx).2.1, (hplain x hx).2.2.1⟩)
    exact ⟨hp.1 0, Or.inl hp.2⟩
  · rw [hdef, ho]
    have hallc := identAll_cons c cs hh hall
    have hp := plain_scan (c :: cs) (fun x hx =>
      ⟨identChar_not_open x (hallc x hx), identChar_not_close x (hallc x hx),
       identChar_ne x '|' (hallc x hx) (by decide)⟩)
    exact ⟨hp.1 0, Or.inl hp.2⟩

/-!
## Deduplication and shape-invariant closure
-/

/-- Deduplication returns a sublist of its input. -/
theorem jsSetDedupAux_sublist (l : List (List Char)) :
    ∀ seen, (jsSetDedupAux seen l).Sublist l := by
  induction l with
  | nil =>
    intro seen
    exact List.Sublist.refl _
  | cons p ps ih =>
    intro seen
    simp only [jsSetDedupAux]
    split
    · exact (ih seen).cons p
    · exact (ih (seen ++ [p])).cons₂ p

/-- Deduplication emits no duplicates and nothing already seen. -/
theorem jsSetDedupAux_nodup (l : List (List Char)) :
    ∀ seen, (jsSetDedupAux seen l).Nodup ∧ ∀ x ∈ jsSetDedupAux seen l, x ∉ seen := by
  induction l with
  | nil =>
    intro seen
    exact ⟨List.nodup_nil, by simp [jsSetDedupAux]⟩
  | cons p ps ih =>
    intro seen
    simp only [jsSetDedupAux]
    split
    · exact ih seen
    · rename_i hps
      obtain ⟨hnd, hdisj⟩ := ih (seen ++ [p])
      refine ⟨List.nodup_cons.mpr ⟨?_, hnd⟩, ?_⟩
      · intro hmem
        exact (hdisj p hmem) (by simp)
      · intro x hx
        rcases List.mem_cons.mp hx with rfl | hx2
        · exact hps
        · intro hxs
          exact hdisj x hx2 (by simp [hxs])

/-- Deduplication is the identity on a duplicate-free list disjoint from
the seen set. -/
theorem jsSetDedupAux_eq_self (l : List (List Char)) :
    ∀ seen, l.Nodup → (∀ x ∈ l, x ∉ seen) → jsSetDedupAux seen l = l := by
  induction l with
  | nil =>
    intro seen _ _
    rfl
  | cons p ps ih =>
    intro seen hnd hdisj
    simp only [jsSetDedupAux]
    rw [if_neg (hdisj p (by simp))]
    congr 1
    apply ih
    · exact (List.nodup_cons.mp hnd).2
    · intro x hx hxmem
      rcases List.mem_append.mp hxmem with h | h
      · exact hdisj x (by simp [hx]) h
      · rw [List.mem_singleton] at h
        exact (List.nodup_cons.mp hnd).1 (h ▸ hx)

/-- Every part of a well-shaped list avoids top-level bars. -/
theorem OkParts_mem (ps : List (List Char)) (hok : OkParts ps) :
    ∀ p ∈ ps, hasTLUGo p 0 = false := by
  induction ps with
  | nil =>
    intro p hp
    exact absurd hp (List.not_mem_nil p)
  | cons a as ih =>
    intro p hp
    obtain ⟨ha, _, hrest⟩ : hasTLUGo a 0 = false ∧ (as = [] ∨ netDepth a = 0) ∧ OkParts as :=
      hok
    rcases List.mem_cons.mp hp with rfl | hp2
    · exact ha
    · exact ih hrest p hp2

/-- The shape invariant passes to sublists: dropping parts can only make
a non-final part final. -/
theorem OkParts_sublist (l₁ l₂ : List (List Char)) (hs : l₁.Sublist l₂)
    (h : OkParts l₂) : OkParts l₁ := by
  induction hs with
  | slnil => trivial
  | cons a _ ih =>
    rename_i lb lc _
    obtain ⟨_, _, hrest⟩ : hasTLUGo a 0 = false ∧ (lc = [] ∨ netDepth a = 0) ∧ OkParts lc :=
      h
    exact ih hrest
  | cons₂ a hsub ih =>
    rename_i lb lc
    obtain ⟨ha, hlast, hrest⟩ :
        hasTLUGo a 0 = false ∧ (lc = [] ∨ netDepth a = 0) ∧ OkParts lc := h
    refine ⟨ha, ?_, ih hrest⟩
    rcases hlast with h2 | h2
    · left
      exact List.sublist_nil.mp (h2 ▸ hsub)
    · right
      exact h2

/-- Normalizing every part of a well-shaped split keeps the shape
invariant. -/
theorem OkParts_map_nst (ps : List (List Char)) (hok : OkParts ps) :
    OkParts (ps.map (fun p => normalizeSingleType (trimChars p))) := by
  induction ps with
  | nil => trivial
  | cons a as ih =>
    obtain ⟨ha, hlast, hrest⟩ :
        hasTLUGo a 0 = false ∧ (as = [] ∨ netDepth a = 0) ∧ OkParts as := hok
    have hfa : normalizeSingleType (trimChars a) = normalizeSingleType a := nst_trim a
    simp only [List.map_cons]
    refine ⟨?_, ?_, ih hrest⟩
    · rw [hfa]
      exact (nst_preserve a ha).1
    · rcases hlast with h2 | h2
      · left
        rw [h2]
        rfl
      · right
        rw [hfa]
        rcases (nst_preserve a ha).2 with h3 | h3
        · exact h3
        · rw [h3, h2]

/-!
## Idempotence of the Normalizer (C4)
-/

/-- The full Normalizer fixes any fixed point of the single-type chain
that has no top-level bar and no leading `?`. -/
theorem norm_of_nst_fixed (q : List Char) (hfix : normalizeSingleType q = q)
    (hTLU : hasTLUGo q 0 = false) (hq : q.head? ≠ some '?') :
    normalizePhpReturnType q = q := by
  unfold normalizePhpReturnType
  by_cases hsp : q = [] ∨ q = "void".data ∨ q = "never".data ∨ q = "mixed".data
  · rw [if_pos hsp]
  rw [if_neg hsp]
  by_cases hnull : q = "null".data
  · rw [if_pos hnull]
  rw [if_neg hnull, if_neg hq]
  have h4 : hasTopLevelUnion q = false := hTLU
  rw [h4]
  simp only [Bool.false_eq_true, if_false]
  exact hfix

/-- Renormalizing the `|`-join of a deduplicated list of nonempty
single-type fixed points in the shape invariant returns it unchanged. -/
theorem norm_joinBar (qs : List (List Char)) (hokq : OkParts qs) (hnd : qs.Nodup)
    (hne : ∀ q ∈ qs, q ≠ [])
    (hfix : ∀ q ∈ qs, normalizeSingleType (trimChars q) = q)
    (hq2 : (joinBar qs).head? ≠ some '?') :
    normalizePhpReturnType (joinBar qs) = joinBar qs := by
  cases qs with
  | nil => decide
  | cons q1 rest =>
    cases rest with
    | nil =>
      rw [joinBar_single] at hq2 ⊢
      apply norm_of_nst_fixed
      · rw [← nst_trim q1]
        exact hfix q1 (by simp)
      · exact OkParts_mem _ hokq q1 (by simp)
      · exact hq2
    | cons q2 rest2 =>
      have hbar : '|' ∈ joinBar (q1 :: q2 :: rest2) := joinBar_mem_bar _ _ _
      have htlu2 : hasTopLevelUnion (joinBar (q1 :: q2 :: rest2)) = true :=
        joinBar_hasTLU _ _ _ hokq
      have hsp : ¬(joinBar (q1 :: q2 :: rest2) = [] ∨
          joinBar (q1 :: q2 :: rest2) = "void".data ∨
          joinBar (q1 :: q2 :: rest2) = "never".data ∨
          joinBar (q1 :: q2 :: rest2) = "mixed".data) := by
        intro h
        rcases h with h | h | h | h <;> (rw [h] at hbar; exact absurd hbar (by decide))
      have hnull : ¬(joinBar (q1 :: q2 :: rest2) = "null".data) := by
        intro h
        rw [h] at hbar
        exact absurd hbar (by decide)
      unfold normalizePhpReturnType
      rw [if_neg hsp, if_neg hnull, if_neg hq2, if_pos htlu2]
      unfold unionNormalize
      rw [split_join _ hokq hne]
      have hmap : List.map (fun p => normalizeSingleType (trimChars p)) (q1 :: q2 :: rest2) =
          q1 :: q2 :: rest2 := by
        have h2 : List.map (fun p => normalizeSingleType (trimChars p)) (q1 :: q2 :: rest2) =
            List.map id (q1 :: q2 :: rest2) := List.map_congr_left hfix
        rw [h2, List.map_id]
      rw [hmap]
      have hfil : List.filter (fun p => !p.isEmpty) (q1 :: q2 :: rest2) =
          q1 :: q2 :: rest2 := by
        apply List.filter_eq_self.mpr
        intro a ha
        have hane := hne a ha
        cases a with
        | nil => exact absurd rfl hane
        | cons x xs => rfl
      rw [hfil]
      have hded : jsSetDedup (q1 :: q2 :: rest2) = q1 :: q2 :: rest2 :=
        jsSetDedupAux_eq_self _ [] hnd (by simp)
      rw [hded]

/-- The list joined by the union branch: well shaped, duplicate free,
all parts nonempty fixed points of the single-type chain. -/
theorem unionNormalize_parts (t : List Char) :
    OkParts (jsSetDedup (((splitTopLevelUnion t).map
      (fun p => normalizeSingleType (trimChars p))).filter (fun p => !p.isEmpty))) ∧
    (jsSetDedup (((splitTopLevelUnion t).map
      (fun p => normalizeSingleType (trimChars p))).filter (fun p => !p.isEmpty))).Nodup ∧
    (∀ q ∈ jsSetDedup (((splitTopLevelUnion t).map
      (fun p => normalizeSingleType (trimChars p))).filter (fun p => !p.isEmpty)), q ≠ []) ∧
    (∀ q ∈ jsSetDedup (((splitTopLevelUnion t).map
      (fun p => normalizeSingleType (trimChars p))).filter (fun p => !p.isEmpty)),
      normalizeSingleType (trimChars q) = q) := by
  have hok : OkParts (splitTopLevelUnion t) := splitGo_ok t [] 0 rfl rfl
  have hokm := OkParts_map_nst _ hok
  have hsubf : (((splitTopLevelUnion t).map
      (fun p => normalizeSingleType (trimChars p))).filter (fun p => !p.isEmpty)).Sublist
      ((splitTopLevelUnion t).map (fun p => normalizeSingleType (trimChars p))) :=
    List.filter_sublist _
  have hsubd := jsSetDedupAux_sublist (((splitTopLevelUnion t).map
      (fun p => normalizeSingleType (trimChars p))).filter (fun p => !p.isEmpty)) []
  refine ⟨OkParts_sublist _ _ (hsubd.trans hsubf) hokm, (jsSetDedupAux_nodup _ []).1,
    ?_, ?_⟩
  · intro q hq'
    have hqf := hsubd.subset hq'
    have hflt := (List.mem_filter.mp hqf).2
    intro he
    rw [he] at hflt
    exact absurd hflt (by decide)
  · intro q hq'
    have hqm := hsubf.subset (hsubd.subset hq')
    obtain ⟨p, _, hpe⟩ := List.mem_map.mp hqm
    rw [nst_trim q, ← hpe, nst_trim p]
    exact nst_idem p

/-- C4 (amended): the Normalizer is idempotent on every input that does
not begin with `?` and whose normalization does not begin with `?`
(union member first-occurrence order is preserved exactly, since the
output is returned unchanged).  The leading-`?` rule breaks idempotence:
its output `inner|null` can itself begin with `?` or gain a second
`null`, as the counterexample shows. -/
theorem normalize_idem (t : List Char) (hq : t.head? ≠ some '?')
    (hq2 : (normalizePhpReturnType t).head? ≠ some '?') :
    normalizePhpReturnType (normalizePhpReturnType t) = normalizePhpReturnType t := by
  by_cases hsp : t = [] ∨ t = "void".data ∨ t = "never".data ∨ t = "mixed".data
  · have h1 : normalizePhpReturnType t = t := by
      unfold normalizePhpReturnType
      rw [if_pos hsp]
    rw [h1]
    exact h1
  by_cases hnull : t = "null".data
  · have h1 : normalizePhpReturnType t = t := by
      unfold normalizePhpReturnType
      rw [if_neg hsp, if_pos hnull]
    rw [h1]
    exact h1
  by_cases htlu : hasTopLevelUnion t = true
  · have h1 : normalizePhpReturnType t = unionNormalize t := by
      unfold normalizePhpReturnType
      rw [if_neg hsp, if_neg hnull, if_neg hq, if_pos htlu]
    obtain ⟨hokq, hnd, hne, hfix⟩ := unionNormalize_parts t
    rw [h1] at hq2 ⊢
    exact norm_joinBar _ hokq hnd hne hfix hq2
  · have h1 : normalizePhpReturnType t = normalizeSingleType t := by
      unfold normalizePhpReturnType
      rw [if_neg hsp, if_neg hnull, if_neg hq, bool_ne_true _ htlu]
      simp only [Bool.false_eq_true, if_false]
    have hT : hasTLUGo t 0 = false := bool_ne_true _ htlu
    rw [h1] at hq2 ⊢
    exact norm_of_nst_fixed _ (nst_idem t) (nst_preserve t hT).1 hq2

/-- C4 counterexample: `?int|null` is itself a Normalizer output (the
normalization of `??int`), yet normalizing it again changes it
(`?int|null` renormalizes to `int|null|null`, and once more to
`int|null`), so idempotence fails on canonical strings reachable
through the leading-`?` rule. -/
theorem normalize_idem_counterexample :
    normalizePhp "??int" = "?int|null" ∧
    normalizePhp (normalizePhp "?int|null") ≠ normalizePhp "?int|null" :=
  ⟨by decide, by decide⟩

/-- Witness for the amended C4 at `User|null`. -/
theorem normalize_idem_witness :
    ("User|null".data.head? ≠ some '?') ∧
    ((normalizePhpReturnType "User|null".data).head? ≠ some '?') ∧
    normalizePhpReturnType (normalizePhpReturnType "User|null".data) =
      normalizePhpReturnType "User|null".data :=
  ⟨by decide, by decide, normalize_idem "User|null".data (by decide) (by decide)⟩

end PhpTypeHints
